import Mathlib

/-
Verification of the holdings-ledger program (src/src/portfolio.c).

Modelling conventions:
* C strings (char arrays) are `List Char` (`Str`).
* C `double` is `ℚ` (exact rational arithmetic stands in for IEEE doubles;
  all claims under study concern the algebraic values computed).
* C `int` is `Int` (no claim under study exercises 32-bit overflow).
* stdin lines consumed by an operation are passed as a `List Str`
  (`get_line` returning 0 on EOF is the empty-list case).
* The file read by `load_file` is `Option (List Str)`: `none` models a
  failing `fopen` (absent file), `some lines` the file's lines with the
  trailing newline already stripped (the code strips it before `sscanf`).
* strtod / %lf: the finite number syntax of C11 strtod is modelled in
  full — sign, decimal digits with optional fraction and e-exponent, and
  hexadecimal significands (0x/0X) with optional hex fraction and binary
  p-exponent — with exact rational values. The two consumers differ and
  are modelled separately via a flag: strtod backs up over an incomplete
  tail (e.g. "3e" parses as 3 leaving "e"), while scanf's %lf reads
  greedily and reports a matching failure when the characters read do not
  themselves form a complete number (e.g. "3e" fails). The inf/infinity
  and nan forms denote IEEE values with no counterpart in the rational
  state space; `specialD`/`specialLine` detect exactly the inputs whose
  %lf/strtod scan reaches such a form, and the theorems quantifying over
  raw input strings exclude those inputs explicitly as part of the
  double-as-ℚ idealization (like overflow to ±inf, they lie outside it).
* printed messages that carry claim-relevant information (bulk reprice)
  are modelled by the inductive `Msg`; pure prompts are omitted.
-/

namespace Portfolio

abbrev Str := List Char

/-- C struct Stock: char symbol[16]; int qty; double buy_price; double cur_price. -/
structure Stock where
  symbol : Str
  qty : Int
  buy_price : ℚ
  cur_price : ℚ
deriving DecidableEq

/-- MAX_STOCKS. -/
def MAX_STOCKS : Nat := 100

/-- C isspace over the characters that can occur in a read line. -/
def isSpaceC (c : Char) : Bool :=
  c = ' ' || c = '\t' || c = '\n' || c = '\r' || c = '\x0b' || c = '\x0c'

/-- strtoupper: toupper mapped over the string (ASCII behaviour of C toupper). -/
def strtoupper (s : Str) : Str := s.map Char.toUpper

/-- snprintf(dst, 16, "%s", src): copy truncated to 15 characters. -/
def snprintf15 (s : Str) : Str := s.take 15

/-- Symbol normalization as performed by buy/sell/update_prices:
snprintf truncation to 15 chars followed by strtoupper. -/
def normSym (s : Str) : Str := strtoupper (snprintf15 s)

def isDigitC (c : Char) : Bool := '0' ≤ c && c ≤ '9'

/-- Scan a maximal run of decimal digits, accumulating their value;
returns (value, number of digits consumed, rest). -/
def scanDigits : Nat → Nat → Str → Nat × Nat × Str
  | acc, n, [] => (acc, n, [])
  | acc, n, c :: cs =>
    if isDigitC c then scanDigits (10 * acc + (c.toNat - 48)) (n + 1) cs
    else (acc, n, c :: cs)

/-- Scan an optional sign; returns (isNegative, rest). -/
def scanSign : Str → Bool × Str
  | '-' :: cs => (true, cs)
  | '+' :: cs => (false, cs)
  | cs => (false, cs)

/-- strtol(s, &end, 10) viewed as a prefix scanner (also scanf %d):
skip whitespace, optional sign, at least one digit; longest valid prefix. -/
def scanInt (s : Str) : Option (Int × Str) :=
  let s1 := s.dropWhile isSpaceC
  let p := scanSign s1
  let q := scanDigits 0 0 p.2
  if q.2.1 = 0 then none
  else some (if p.1 then -(q.1 : Int) else (q.1 : Int), q.2.2)

/-- C isxdigit over ASCII. -/
def isHexDigitC (c : Char) : Bool :=
  ('0' ≤ c && c ≤ '9') || ('a' ≤ c && c ≤ 'f') || ('A' ≤ c && c ≤ 'F')

/-- Value of a hexadecimal digit character. -/
def hexVal (c : Char) : Nat :=
  if 'a' ≤ c && c ≤ 'f' then c.toNat - 87
  else if 'A' ≤ c && c ≤ 'F' then c.toNat - 55
  else c.toNat - 48

/-- Scan a maximal run of hexadecimal digits, accumulating their value;
returns (value, number of digits consumed, rest). -/
def scanHexDigits : Nat → Nat → Str → Nat × Nat × Str
  | acc, n, [] => (acc, n, [])
  | acc, n, c :: cs =>
    if isHexDigitC c then scanHexDigits (16 * acc + hexVal c) (n + 1) cs
    else (acc, n, c :: cs)

/-- Detect the strtod hexadecimal prefix 0x / 0X (after sign); yields the
x character and the remainder. -/
def hexTail (s : Str) : Option (Char × Str) :=
  match s with
  | c :: d :: t => if c = '0' && (d = 'x' || d = 'X') then some (d, t) else none
  | _ => none

/-- Decimal-exponent part of a number (e/E, optional sign, digits). `bk`
selects the consumer: strtod (true) backs up when no digit follows the
marker, scanf %lf (false) treats the characters read as a matching
failure (none). -/
def scanExp (bk : Bool) (m : ℚ) (s : Str) : Option (ℚ × Str) :=
  match s with
  | 'e' :: t =>
    let p := scanSign t
    let q := scanDigits 0 0 p.2
    if q.2.1 = 0 then (if bk then some (m, 'e' :: t) else none)
    else some (m * (10 : ℚ) ^ (if p.1 then -(q.1 : Int) else (q.1 : Int)), q.2.2)
  | 'E' :: t =>
    let p := scanSign t
    let q := scanDigits 0 0 p.2
    if q.2.1 = 0 then (if bk then some (m, 'E' :: t) else none)
    else some (m * (10 : ℚ) ^ (if p.1 then -(q.1 : Int) else (q.1 : Int)), q.2.2)
  | _ => some (m, s)

/-- Binary-exponent part of a hexadecimal number (p/P, optional sign,
decimal digits, scaling by powers of 2); `bk` as in scanExp. -/
def scanPExp (bk : Bool) (m : ℚ) (s : Str) : Option (ℚ × Str) :=
  match s with
  | 'p' :: t =>
    let p := scanSign t
    let q := scanDigits 0 0 p.2
    if q.2.1 = 0 then (if bk then some (m, 'p' :: t) else none)
    else some (m * (2 : ℚ) ^ (if p.1 then -(q.1 : Int) else (q.1 : Int)), q.2.2)
  | 'P' :: t =>
    let p := scanSign t
    let q := scanDigits 0 0 p.2
    if q.2.1 = 0 then (if bk then some (m, 'P' :: t) else none)
    else some (m * (2 : ℚ) ^ (if p.1 then -(q.1 : Int) else (q.1 : Int)), q.2.2)
  | _ => some (m, s)

/-- Hexadecimal significand and exponent after a consumed 0x/0X prefix
(neg is the already-scanned sign, xc the x character just consumed, t the
remainder): hex digits with optional hex fraction, then an optional
p-exponent. With no significand digit at all, strtod's subject sequence
is just the leading "0" (value 0, the x is given back); scanf fails. -/
def scanHexMant (bk : Bool) (neg : Bool) (xc : Char) (t : Str) :
    Option (ℚ × Str) :=
  let q := scanHexDigits 0 0 t
  match q.2.2 with
  | '.' :: s4 =>
    let f := scanHexDigits 0 0 s4
    if q.2.1 = 0 && f.2.1 = 0 then (if bk then some (0, xc :: t) else none)
    else
      let m : ℚ := (q.1 : ℚ) + (f.1 : ℚ) / (16 : ℚ) ^ f.2.1
      match scanPExp bk m f.2.2 with
      | none => none
      | some e => some (if neg then -e.1 else e.1, e.2)
  | _ =>
    if q.2.1 = 0 then (if bk then some (0, xc :: t) else none)
    else
      match scanPExp bk (q.1 : ℚ) q.2.2 with
      | none => none
      | some e => some (if neg then -e.1 else e.1, e.2)

/-- The finite number syntax shared by strtod(s, &end) and scanf %lf:
whitespace, sign, then a hexadecimal (0x) or decimal significand with
optional fraction and exponent; at least one significand digit. `bk`
distinguishes strtod (backs up over an incomplete tail) from scanf %lf
(greedy read, matching failure on an incomplete number). The inf/nan
forms have no value in ℚ; inputs reaching them are detected by
`specialD` and excluded by hypothesis where they matter. -/
def scanDoubleB (bk : Bool) (s : Str) : Option (ℚ × Str) :=
  let s1 := s.dropWhile isSpaceC
  let p := scanSign s1
  match hexTail p.2 with
  | some xt => scanHexMant bk p.1 xt.1 xt.2
  | none =>
    let q := scanDigits 0 0 p.2
    match q.2.2 with
    | '.' :: s4 =>
      let f := scanDigits 0 0 s4
      if q.2.1 = 0 && f.2.1 = 0 then none
      else
        match scanExp bk ((q.1 : ℚ) + (f.1 : ℚ) / (10 : ℚ) ^ f.2.1) f.2.2 with
        | none => none
        | some e => some (if p.1 then -e.1 else e.1, e.2)
    | _ =>
      if q.2.1 = 0 then none
      else
        match scanExp bk (q.1 : ℚ) q.2.2 with
        | none => none
        | some e => some (if p.1 then -e.1 else e.1, e.2)

/-- strtod(s, &end) as a prefix scanner (finite forms). -/
def scanDouble (s : Str) : Option (ℚ × Str) := scanDoubleB true s

/-- parse_int: strtol plus the end==s / *end!='\0' checks. -/
def parse_int (s : Str) : Option Int :=
  match scanInt s with
  | some (v, []) => some v
  | _ => none

/-- parse_double: strtod plus the end==s / *end!='\0' checks. -/
def parse_double (s : Str) : Option ℚ :=
  match scanDouble s with
  | some (v, []) => some v
  | _ => none

/-- scanf %15s: skip whitespace, then up to 15 non-whitespace characters;
fails when no character is available. -/
def scanSym15 (s : Str) : Option (Str × Str) :=
  let s1 := s.dropWhile isSpaceC
  let tok := (s1.takeWhile (fun c => !isSpaceC c)).take 15
  if tok = [] then none else some (tok, s1.drop tok.length)

/-- sscanf(line, "%15s %d %lf %lf", sym, &q, &bp, &cp) == 4 followed by
strtoupper(sym) and the snprintf copy into the stored record, as done by
load_file. Trailing content after the fourth field is ignored by sscanf;
each %lf uses the scanf reading discipline (scanDoubleB false). -/
def parseLine (l : Str) : Option Stock :=
  match scanSym15 l with
  | none => none
  | some (sym, r1) =>
    match scanInt r1 with
    | none => none
    | some (q, r2) =>
      match scanDoubleB false r2 with
      | none => none
      | some (bp, r3) =>
        match scanDoubleB false r3 with
        | none => none
        | some (cp, _) => some ⟨snprintf15 (strtoupper sym), q, bp, cp⟩

/-- ASCII tolower. -/
def toLowerC (c : Char) : Char :=
  if 'A' ≤ c && c ≤ 'Z' then Char.ofNat (c.toNat + 32) else c

/-- Case-insensitive keyword match: consume the keyword (given in
lowercase), returning the remainder. -/
def matchCI : Str → Str → Option Str
  | [], s => some s
  | _ :: _, [] => none
  | k :: ks, c :: cs => if toLowerC c = k then matchCI ks cs else none

/-- strtod and scanf %lf also accept inf/infinity and nan/nan(...) (case
insensitive, after whitespace and sign); these denote IEEE values with no
counterpart in the rational state space of this model. This detector is
true exactly when C's number scan, started on s, reaches such a form.
Theorems quantifying over raw input strings exclude these inputs
explicitly (part of the double-as-ℚ idealization). -/
def specialD (s : Str) : Bool :=
  let s2 := (scanSign (s.dropWhile isSpaceC)).2
  (matchCI ['i', 'n', 'f'] s2).isSome || (matchCI ['n', 'a', 'n'] s2).isSome

/-- A load line on which sscanf("%15s %d %lf %lf") would reach an
inf/nan form in one of its two %lf conversions. -/
def specialLine (l : Str) : Bool :=
  match scanSym15 l with
  | none => false
  | some (_, r1) =>
    match scanInt r1 with
    | none => false
    | some (_, r2) =>
      if specialD r2 then true
      else
        match scanDoubleB false r2 with
        | none => false
        | some (_, r3) => specialD r3

/-- find_index: linear scan for an exact (already-normalized) symbol match;
Option Nat stands for the C index / -1 result. -/
def find_index : List Stock → Str → Option Nat
  | [], _ => none
  | s :: rest, sym =>
    if s.symbol = sym then some 0
    else (find_index rest sym).map (· + 1)

/-- Outcome of buy (which message path was taken). -/
inductive BuyOut where
  | eof | emptySymbol | badQty | badPrice | updated | added | full
deriving DecidableEq

/-- Core of buy after input validation: the mutation at lines 132-154. -/
def buyCore (st : List Stock) (sym : Str) (q : Int) (p : ℚ) :
    BuyOut × List Stock :=
  match find_index st sym with
  | some idx =>
    match st[idx]? with
    | some s =>
      let old_cost : ℚ := (s.qty : ℚ) * s.buy_price
      let new_cost : ℚ := (q : ℚ) * p
      let newQty : Int := s.qty + q
      (.updated, st.set idx
        { s with qty := newQty,
                 buy_price := (old_cost + new_cost) / (newQty : ℚ),
                 cur_price := p })
    | none => (.updated, st)
  | none =>
    if st.length < MAX_STOCKS then
      (.added, st ++ [⟨snprintf15 sym, q, p, p⟩])
    else (.full, st)

/-- buy(): reads symbol, quantity and price lines, validates each, then
performs the core mutation. `inp` is the stream of stdin lines. -/
def buy (st : List Stock) (inp : List Str) : BuyOut × List Stock :=
  match inp with
  | [] => (.eof, st)
  | symLine :: rest =>
    if symLine.length = 0 then (.emptySymbol, st)
    else
      match rest with
      | [] => (.eof, st)
      | qtyLine :: rest2 =>
        match parse_int qtyLine with
        | none => (.badQty, st)
        | some q =>
          if q ≤ 0 then (.badQty, st)
          else
            match rest2 with
            | [] => (.eof, st)
            | priceLine :: _ =>
              match parse_double priceLine with
              | none => (.badPrice, st)
              | some p =>
                if p ≤ 0 then (.badPrice, st)
                else buyCore st (normSym symLine) q p

/-- Outcome of sell. -/
inductive SellOut where
  | eof | emptySymbol | notFound | badQty | badPrice | insufficient
  | removed | reduced
deriving DecidableEq

/-- Core of sell after input validation: lines 188-205. -/
def sellCore (st : List Stock) (idx : Nat) (q : Int) (p : ℚ) :
    SellOut × List Stock :=
  match st[idx]? with
  | none => (.notFound, st)
  | some s =>
    if s.qty < q then (.insufficient, st)
    else
      let s' := { s with qty := s.qty - q, cur_price := p }
      if s.qty - q = 0 then (.removed, (st.set idx s').eraseIdx idx)
      else (.reduced, st.set idx s')

/-- sell(): reads symbol, looks it up, then quantity and price lines with
validation, then the core mutation. -/
def sell (st : List Stock) (inp : List Str) : SellOut × List Stock :=
  match inp with
  | [] => (.eof, st)
  | symLine :: rest =>
    if symLine.length = 0 then (.emptySymbol, st)
    else
      match find_index st (normSym symLine) with
      | none => (.notFound, st)
      | some idx =>
        match rest with
        | [] => (.eof, st)
        | qtyLine :: rest2 =>
          match parse_int qtyLine with
          | none => (.badQty, st)
          | some q =>
            if q ≤ 0 then (.badQty, st)
            else
              match rest2 with
              | [] => (.eof, st)
              | priceLine :: _ =>
                match parse_double priceLine with
                | none => (.badPrice, st)
                | some p =>
                  if p < 0 then (.badPrice, st)
                  else sellCore st idx q p

/-- Claim-relevant printed messages of update_prices. -/
inductive Msg where
  | noInput | emptyPf | inputError | invalidSkip (sym : Str)
  | allProcessed | notFound (sym : Str) | invalidPrice | updatedOne
deriving DecidableEq

/-- The per-holding step of the bulk-reprice loop: a blank line skips, an
unparseable or non-positive price skips, otherwise cur_price is set. -/
def repriceStep (s : Stock) (inp : Str) : Stock :=
  if inp = [] then s
  else
    match parse_double inp with
    | some p => if p ≤ 0 then s else { s with cur_price := p }
    | none => s

/-- The ALL branch of update_prices (lines 223-237): one input line per
holding; EOF aborts the loop, leaving the remaining holdings untouched. -/
def updAll : List Stock → List Str → List Stock × List Msg
  | [], _ => ([], [.allProcessed])
  | s :: rest, [] => (s :: rest, [.inputError])
  | s :: rest, inp :: inps =>
    if inp = [] then
      let (r, ms) := updAll rest inps
      (s :: r, ms)
    else
      match parse_double inp with
      | some p =>
        if p ≤ 0 then
          let (r, ms) := updAll rest inps
          (s :: r, .invalidSkip s.symbol :: ms)
        else
          let (r, ms) := updAll rest inps
          ({ s with cur_price := p } :: r, ms)
      | none =>
        let (r, ms) := updAll rest inps
        (s :: r, .invalidSkip s.symbol :: ms)

/-- update_prices(): first line selects ALL (case-insensitive after the
same normalization as buy) or a single symbol. -/
def update_prices (st : List Stock) (inp : List Str) :
    List Stock × List Msg :=
  match inp with
  | [] => (st, [])
  | l :: rest =>
    if l.length = 0 then (st, [.noInput])
    else
      if normSym l = "ALL".data then
        if st.length = 0 then (st, [.emptyPf]) else updAll st rest
      else
        match find_index st (normSym l) with
        | none => (st, [.notFound (normSym l)])
        | some idx =>
          match st[idx]? with
          | none => (st, [.notFound (normSym l)])
          | some s =>
            match rest with
            | [] => (st, [.inputError])
            | priceLine :: _ =>
              match parse_double priceLine with
              | some p =>
                if p ≤ 0 then (st, [.invalidPrice])
                else (st.set idx { s with cur_price := p }, [.updatedOne])
              | none => (st, [.invalidPrice])

/-- load_file's line loop: append each line that sscanf accepts while
below capacity, counting the stored records. -/
def loadAux : List Stock → Nat → List Str → List Stock × Nat
  | acc, loaded, [] => (acc, loaded)
  | acc, loaded, l :: ls =>
    match parseLine l with
    | some r =>
      if acc.length < MAX_STOCKS then loadAux (acc ++ [r]) (loaded + 1) ls
      else loadAux acc loaded ls
    | none => loadAux acc loaded ls

/-- load_file(): a failing fopen (`none`) returns with the ledger
untouched; otherwise the ledger is cleared (count = 0) and rebuilt from
the file's lines. Result: (reported loaded count if the file opened,
new ledger). -/
def load_file (st : List Stock) (file : Option (List Str)) :
    Option Nat × List Stock :=
  match file with
  | none => (none, st)
  | some lines =>
    let (st', loaded) := loadAux [] 0 lines
    (some loaded, st')

/-- Decimal digit to its character. -/
def digitChar (d : Nat) : Char := Char.ofNat (48 + d)

/-- Big-endian decimal digits of a natural number, with structural fuel
(kernel-reducible, unlike well-founded recursion). -/
def toDigsAux : Nat → Nat → List Nat
  | 0, _ => []
  | _, 0 => []
  | fuel + 1, n + 1 => toDigsAux fuel ((n + 1) / 10) ++ [(n + 1) % 10]

/-- Big-endian decimal digits of n (empty for 0). -/
def toDigs (n : Nat) : List Nat := toDigsAux n n

/-- Value of a big-endian digit list. -/
def valBE (l : List Nat) : Nat := l.foldl (fun a d => 10 * a + d) 0

/-- printf %d for a natural number. -/
def fmtNat (n : Nat) : Str := if n = 0 then ['0'] else (toDigs n).map digitChar

/-- printf %d. -/
def fmtInt (n : Int) : Str :=
  if n < 0 then '-' :: fmtNat (-n).toNat else fmtNat n.toNat

/-- Floor of log10 of a positive rational, computed from the decimal digit
lengths of numerator and denominator: with la, lb those lengths,
10^(la-lb) ≤ p iff b*10^la ≤ a*10^lb, and the answer is la-lb or la-lb-1. -/
def decExp (p : ℚ) : Int :=
  let a := p.num.toNat
  let b := p.den
  let la := (toDigs a).length
  let lb := (toDigs b).length
  if b * 10 ^ la ≤ a * 10 ^ lb then (la : Int) - lb else (la : Int) - lb - 1

/-- Ten-significant-digit decimal mantissa and exponent of a positive
rational, as produced by printf %.10g: the mantissa is p/10^(e-9) rounded
to an integer in [10^9, 10^10), renormalizing when rounding carries over
to 10^10. (Rounding of the decimal tail is modelled half-up.) -/
def mantE (p : ℚ) : Nat × Int :=
  let e := decExp p
  let m := (Int.floor (p * (10 : ℚ) ^ (9 - e) + 1 / 2)).toNat
  if m = 10 ^ 10 then (10 ^ 9, e + 1) else (m, e)

/-- The rational value denoted by the %.10g output for p: p rounded to
ten significant decimal digits. -/
def g10 (p : ℚ) : ℚ :=
  if p = 0 then 0
  else if p < 0 then -(((mantE (-p)).1 : ℚ) * (10 : ℚ) ^ ((mantE (-p)).2 - 9))
  else ((mantE p).1 : ℚ) * (10 : ℚ) ^ ((mantE p).2 - 9)

/-- Strip trailing '0' characters (as %g does in the fraction part). -/
def strip0 (l : Str) : Str := (l.reverse.dropWhile (· = '0')).reverse

/-- Exponent field of %e style: sign then at least two digits. -/
def expChars (x : Int) : Str :=
  let xd := (toDigs x.natAbs).map digitChar
  let pad := if xd.length = 0 then ['0', '0']
             else if xd.length = 1 then '0' :: xd else xd
  (if x < 0 then '-' else '+') :: pad

/-- Render a normalized (mantissa, exponent) pair the way %.10g does:
scientific style when the exponent is < -4 or ≥ 10, fixed style
otherwise, stripping trailing zeros of the fraction part. -/
def renderG (m : Nat) (x : Int) : Str :=
  let D := (toDigs m).map digitChar
  if x < -4 ∨ 10 ≤ x then
    let frac := strip0 (D.drop 1)
    D.take 1 ++ (if frac = [] then [] else '.' :: frac) ++ 'e' :: expChars x
  else if 0 ≤ x then
    let ip := D.take (x.toNat + 1)
    let frac := strip0 (D.drop (x.toNat + 1))
    ip ++ (if frac = [] then [] else '.' :: frac)
  else
    '0' :: '.' :: (List.replicate (x.natAbs - 1) '0' ++ strip0 D)

/-- printf("%.10g") on a double value. -/
def fmtG10 (p : ℚ) : Str :=
  if p = 0 then ['0']
  else if p < 0 then '-' :: renderG (mantE (-p)).1 (mantE (-p)).2
  else renderG (mantE p).1 (mantE p).2

/-- fprintf(f, "%s %d %.10g %.10g\n", ...) for one holding, without the
trailing newline (load_file strips it before parsing). -/
def save_line (s : Stock) : Str :=
  s.symbol ++ ' ' :: fmtInt s.qty ++ ' ' :: fmtG10 s.buy_price ++
    ' ' :: fmtG10 s.cur_price

/-- save_file(): one line per holding in ledger order. -/
def save_file (st : List Stock) : List Str := st.map save_line

/-- A stored symbol as the data model describes it: a nonempty identifier
of at most 15 characters, no embedded whitespace, uppercase-normalized. -/
def symbolOk (sym : Str) : Prop :=
  sym ≠ [] ∧ sym.length ≤ 15 ∧ (∀ c ∈ sym, isSpaceC c = false) ∧
    strtoupper sym = sym

/-- The ledger invariant of the spec: positive quantities, unique
symbols, capacity not exceeded. -/
def Inv (st : List Stock) : Prop :=
  (∀ s ∈ st, 0 < s.qty) ∧ (st.map Stock.symbol).Nodup ∧
    st.length ≤ MAX_STOCKS

/-- Full data-model invariant (section 3 of the spec): Inv plus
well-formed symbols, positive buy price, non-negative current price. -/
def ModelInv (st : List Stock) : Prop :=
  Inv st ∧ ∀ s ∈ st, symbolOk s.symbol ∧ 0 < s.buy_price ∧ 0 ≤ s.cur_price

/-- A file none of whose lines reads as an IEEE inf/nan (those lie
outside the rational data model), whose well-formed lines carry positive
quantities and pairwise-distinct symbols (all true of every file
save_file writes from a ledger satisfying Inv). -/
def goodFile (lines : List Str) : Prop :=
  (∀ l ∈ lines, specialLine l = false) ∧
    (∀ r ∈ lines.filterMap parseLine, 0 < r.qty) ∧
    ((lines.filterMap parseLine).map Stock.symbol).Nodup

/-- A list position where digit scanning stops: empty or non-digit head. -/
def stopsDigits (r : Str) : Prop :=
  r = [] ∨ ∃ c t, r = c :: t ∧ isDigitC c = false

/- ------------------------------------------------------------------ -/
/- Helper lemmas                                                       -/
/- ------------------------------------------------------------------ -/

theorem find_index_some_spec (sym : Str) :
    ∀ (st : List Stock) (i : Nat), find_index st sym = some i →
      ∃ s, st[i]? = some s ∧ s.symbol = sym := by
  intro st
  induction st with
  | nil => intro i h; simp [find_index] at h
  | cons a t ih =>
    intro i h
    by_cases ha : a.symbol = sym
    · simp only [find_index, if_pos ha, Option.some.injEq] at h
      subst h
      exact ⟨a, by simp, ha⟩
    · simp only [find_index, if_neg ha, Option.map_eq_some'] at h
      obtain ⟨j, hj, hij⟩ := h
      obtain ⟨s, hs, hsym⟩ := ih j hj
      subst hij
      exact ⟨s, by simpa using hs, hsym⟩

theorem find_index_eq_none_iff (sym : Str) :
    ∀ st : List Stock, find_index st sym = none ↔ ∀ s ∈ st, s.symbol ≠ sym := by
  intro st
  induction st with
  | nil => simp [find_index]
  | cons a t ih =>
    by_cases ha : a.symbol = sym
    · simp [find_index, ha]
    · simp [find_index, ha, ih]

theorem find_index_append_one (st : List Stock) (x : Stock) (sym : Str)
    (h : find_index st sym = none) :
    find_index (st ++ [x]) sym =
      if x.symbol = sym then some st.length else none := by
  induction st with
  | nil => simp [find_index]
  | cons a t ih =>
    have ha : a.symbol ≠ sym := by
      intro hEq
      simp [find_index, hEq] at h
    have ht : find_index t sym = none := by
      simp only [find_index, if_neg ha, Option.map_eq_none'] at h
      exact h
    rw [List.cons_append,
      show find_index (a :: (t ++ [x])) sym =
        if a.symbol = sym then some 0
        else (find_index (t ++ [x]) sym).map (· + 1) from rfl,
      if_neg ha, ih ht]
    by_cases hx : x.symbol = sym
    · simp [hx]
    · simp [hx]

theorem set_last_append (st : List Stock) (x y : Stock) :
    (st ++ [x]).set st.length y = st ++ [y] := by
  induction st with
  | nil => simp
  | cons a t ih => simp [ih]

theorem eraseIdx_set_self {α : Type} :
    ∀ (l : List α) (i : Nat) (a : α), (l.set i a).eraseIdx i = l.eraseIdx i := by
  intro l
  induction l with
  | nil => intro i a; simp
  | cons b t ih =>
    intro i a
    cases i with
    | zero => simp [List.set, List.eraseIdx]
    | succ j => simp [List.set, List.eraseIdx, ih]

theorem nodup_not_mem_eraseIdx {α : Type} :
    ∀ (l : List α) (i : Nat) (x : α), l.Nodup → l[i]? = some x →
      x ∉ l.eraseIdx i := by
  intro l
  induction l with
  | nil => intro i x _ h; simp at h
  | cons b t ih =>
    intro i x hnd hg
    cases i with
    | zero =>
      simp only [List.getElem?_cons_zero, Option.some.injEq] at hg
      subst hg
      simp only [List.eraseIdx]
      exact (List.nodup_cons.mp hnd).1
    | succ j =>
      simp only [List.getElem?_cons_succ] at hg
      simp only [List.eraseIdx, List.mem_cons, not_or]
      constructor
      · intro hx
        subst hx
        exact (List.nodup_cons.mp hnd).1 (List.getElem?_mem hg)
      · exact ih j x (List.nodup_cons.mp hnd).2 hg

theorem map_eraseIdx {α β : Type} (f : α → β) :
    ∀ (l : List α) (i : Nat), (l.eraseIdx i).map f = (l.map f).eraseIdx i := by
  intro l
  induction l with
  | nil => intro i; simp
  | cons b t ih =>
    intro i
    cases i with
    | zero => simp [List.eraseIdx]
    | succ j => simp [List.eraseIdx, ih]

/- ------------------------------------------------------------------ -/
/- C2: buy on an existing symbol                                       -/
/- ------------------------------------------------------------------ -/

/-- C2: for a Ledger holding symbol sym at index i with old quantity and
average price, a validated Buy(sym, q, p) with q > 0 and p > 0 sets that
Holding's quantity to old+q, its avg price to the weighted mean
(old_qty*old_avg + q*p)/(old_qty+q), its current price to p, and leaves
every other Holding unchanged. -/
theorem C2_buy_existing (st : List Stock) (sym : Str) (i : Nat) (h : Stock)
    (q : Int) (p : ℚ) (hq : 0 < q) (hp : 0 < p)
    (hf : find_index st sym = some i) (hg : st[i]? = some h) :
    buyCore st sym q p =
      (BuyOut.updated, st.set i
        ⟨h.symbol, h.qty + q,
          ((h.qty : ℚ) * h.buy_price + (q : ℚ) * p) / ((h.qty : ℚ) + (q : ℚ)),
          p⟩) ∧
      ∀ j, j ≠ i → (buyCore st sym q p).2[j]? = st[j]? := by
  have hmain : buyCore st sym q p =
      (BuyOut.updated, st.set i
        ⟨h.symbol, h.qty + q,
          ((h.qty : ℚ) * h.buy_price + (q : ℚ) * p) / ((h.qty : ℚ) + (q : ℚ)),
          p⟩) := by
    unfold buyCore
    have hcast : ((h.qty + q : Int) : ℚ) = (h.qty : ℚ) + (q : ℚ) := by push_cast; ring
    simp only [hf]
    simp only [hg]
    simp [hcast]
  refine ⟨hmain, ?_⟩
  intro j hj
  rw [hmain]
  exact List.getElem?_set_ne (fun hij => hj hij.symm) ..

/-- C2 witness: a concrete merging buy. -/
theorem C2_buy_existing_witness :
    buyCore [⟨"ABC".data, 10, 10, 10⟩] "ABC".data 10 20 =
      (BuyOut.updated, [⟨"ABC".data, 10, 10, 10⟩].set 0
        ⟨("ABC".data : Str), (10 : Int) + 10,
          (((10 : Int) : ℚ) * 10 + ((10 : Int) : ℚ) * 20) /
            (((10 : Int) : ℚ) + ((10 : Int) : ℚ)), 20⟩) ∧
      ∀ j, j ≠ 0 →
        (buyCore [⟨"ABC".data, 10, 10, 10⟩] "ABC".data 10 20).2[j]? =
          ([⟨"ABC".data, 10, 10, 10⟩] : List Stock)[j]? :=
  C2_buy_existing [⟨"ABC".data, 10, 10, 10⟩] "ABC".data 0 ⟨"ABC".data, 10, 10, 10⟩
    10 20 (by norm_num) (by norm_num) (by decide) rfl

/- ------------------------------------------------------------------ -/
/- C4: sell with insufficient quantity                                 -/
/- ------------------------------------------------------------------ -/

/-- C4: a Sell whose symbol exists but whose quantity exceeds the held
quantity reports the insufficient-quantity outcome and leaves the whole
Ledger (that Holding included) unchanged. -/
theorem C4_sell_insufficient (st : List Stock) (symLine qtyLine priceLine : Str)
    (i : Nat) (h : Stock) (q : Int) (p : ℚ)
    (hsym : symLine ≠ [])
    (hf : find_index st (normSym symLine) = some i) (hg : st[i]? = some h)
    (hqp : parse_int qtyLine = some q) (hq : 0 < q)
    (hpp : parse_double priceLine = some p) (hp : 0 ≤ p)
    (hins : h.qty < q) :
    sell st [symLine, qtyLine, priceLine] = (SellOut.insufficient, st) := by
  have hlen : ¬symLine.length = 0 := by
    simpa [List.length_eq_zero] using hsym
  unfold sell
  simp only [if_neg hlen, hf, hqp, hpp]
  rw [if_neg (not_le.mpr hq), if_neg (not_lt.mpr hp)]
  unfold sellCore
  simp only [hg]
  rw [if_pos hins]

/-- C4 witness: selling 6 of a 5-share holding fails without mutation. -/
theorem C4_sell_insufficient_witness :
    sell [⟨"ABC".data, 5, 10, 10⟩] ["ABC".data, "6".data, "10".data] =
      (SellOut.insufficient, [⟨"ABC".data, 5, 10, 10⟩]) :=
  C4_sell_insufficient [⟨"ABC".data, 5, 10, 10⟩] "ABC".data "6".data "10".data
    0 ⟨"ABC".data, 5, 10, 10⟩ 6 10 (by decide) (by decide) rfl
    (by simp [parse_int, scanInt, scanSign, scanDigits, isDigitC, isSpaceC])
    (by norm_num)
    (by simp [parse_double, scanDouble, scanDoubleB, hexTail, scanExp, scanSign,
          scanDigits, isDigitC, isSpaceC])
    (by norm_num) (by norm_num)

/- ------------------------------------------------------------------ -/
/- C5: sell to zero removes the holding                                -/
/- ------------------------------------------------------------------ -/

/-- C5: a successful Sell of the entire held quantity removes the Holding,
shifting subsequent entries down (result = take i ++ drop (i+1), which
preserves the relative order of the rest), and a subsequent find on that
symbol returns not-found. -/
theorem C5_sell_all_removes (st : List Stock) (sym : Str) (i : Nat) (h : Stock)
    (p : ℚ) (hnd : (st.map Stock.symbol).Nodup)
    (hf : find_index st sym = some i) (hg : st[i]? = some h) (hp : 0 ≤ p) :
    sellCore st i h.qty p = (SellOut.removed, st.take i ++ st.drop (i + 1)) ∧
      find_index (sellCore st i h.qty p).2 sym = none := by
  have hsymb : h.symbol = sym := by
    obtain ⟨s, hs, hsy⟩ := find_index_some_spec sym st i hf
    have h2 := hs.symm.trans hg
    injection h2 with h3
    rw [← h3]
    exact hsy
  have hmain : sellCore st i h.qty p =
      (SellOut.removed, st.take i ++ st.drop (i + 1)) := by
    unfold sellCore
    simp only [hg]
    rw [if_neg (lt_irrefl h.qty), if_pos (sub_self h.qty), eraseIdx_set_self,
      List.eraseIdx_eq_take_drop_succ]
  refine ⟨hmain, ?_⟩
  rw [hmain]
  rw [find_index_eq_none_iff]
  intro s hs hEq
  have hmem : s ∈ st.eraseIdx i := by
    rw [List.eraseIdx_eq_take_drop_succ]
    exact hs
  have hmem2 : s.symbol ∈ (st.map Stock.symbol).eraseIdx i := by
    rw [← map_eraseIdx]
    exact List.mem_map_of_mem _ hmem
  have hgi : (st.map Stock.symbol)[i]? = some sym := by
    rw [List.getElem?_map, hg]
    simp [hsymb]
  exact nodup_not_mem_eraseIdx (st.map Stock.symbol) i sym hnd hgi (hEq ▸ hmem2)

/-- C5 witness: Buy("ABC",5,...) then Sell("ABC",5,12) leaves no "ABC". -/
theorem C5_sell_all_removes_witness :
    sellCore [⟨"ABC".data, 5, 10, 10⟩] 0 (⟨"ABC".data, (5 : Int), 10, 10⟩ : Stock).qty 12 =
      (SellOut.removed,
        ([⟨"ABC".data, 5, 10, 10⟩] : List Stock).take 0 ++
          ([⟨"ABC".data, 5, 10, 10⟩] : List Stock).drop 1) ∧
      find_index (sellCore [⟨"ABC".data, 5, 10, 10⟩] 0
        (⟨"ABC".data, (5 : Int), 10, 10⟩ : Stock).qty 12).2 "ABC".data = none :=
  C5_sell_all_removes [⟨"ABC".data, 5, 10, 10⟩] "ABC".data 0
    ⟨"ABC".data, 5, 10, 10⟩ 12 (by simp) (by decide) rfl (by norm_num)

/- ------------------------------------------------------------------ -/
/- C9: two buys on a fresh symbol commute                              -/
/- ------------------------------------------------------------------ -/

/-- C9: two valid lots bought on an S-free Ledger (below capacity; sym is
the ≤15-char normalized symbol buy passes to its core) yield the same
quantity q1+q2 and the same weighted-average buy price in either order. -/
theorem C9_buy_buy_comm (st : List Stock) (sym : Str) (q1 q2 : Int) (p1 p2 : ℚ)
    (hq1 : 0 < q1) (hq2 : 0 < q2) (hp1 : 0 < p1) (hp2 : 0 < p2)
    (hs15 : sym.length ≤ 15)
    (hfree : find_index st sym = none) (hcap : st.length < MAX_STOCKS) :
    ∃ c1 c2,
      ((buyCore (buyCore st sym q1 p1).2 sym q2 p2).2)[st.length]? =
        some ⟨sym, q1 + q2,
          ((q1 : ℚ) * p1 + (q2 : ℚ) * p2) / ((q1 : ℚ) + (q2 : ℚ)), c1⟩ ∧
      ((buyCore (buyCore st sym q2 p2).2 sym q1 p1).2)[st.length]? =
        some ⟨sym, q1 + q2,
          ((q1 : ℚ) * p1 + (q2 : ℚ) * p2) / ((q1 : ℚ) + (q2 : ℚ)), c2⟩ := by
  have htrunc : snprintf15 sym = sym := List.take_all_of_le hs15
  have key : ∀ (qa qb : Int) (pa pb : ℚ),
      ((buyCore (buyCore st sym qa pa).2 sym qb pb).2)[st.length]? =
        some ⟨sym, qa + qb,
          ((qa : ℚ) * pa + (qb : ℚ) * pb) / ((qa : ℚ) + (qb : ℚ)), pb⟩ := by
    intro qa qb pa pb
    have h1 : buyCore st sym qa pa =
        (BuyOut.added, st ++ [⟨sym, qa, pa, pa⟩]) := by
      unfold buyCore
      simp only [hfree]
      rw [if_pos hcap, htrunc]
    rw [h1]
    have hfind2 : find_index (st ++ [⟨sym, qa, pa, pa⟩]) sym = some st.length := by
      rw [find_index_append_one st _ sym hfree]
      simp
    have hget2 : (st ++ [(⟨sym, qa, pa, pa⟩ : Stock)])[st.length]? =
        some ⟨sym, qa, pa, pa⟩ := List.getElem?_concat_length ..
    have hcast : ((qa + qb : Int) : ℚ) = (qa : ℚ) + (qb : ℚ) := by push_cast; ring
    unfold buyCore
    simp only [hfind2]
    simp only [hget2]
    simp only [set_last_append]
    simp [hcast]
  refine ⟨p2, p1, key q1 q2 p1 p2, ?_⟩
  rw [key q2 q1 p2 p1]
  have e1 : (q2 : ℚ) * p2 + (q1 : ℚ) * p1 = (q1 : ℚ) * p1 + (q2 : ℚ) * p2 :=
    add_comm ..
  have e2 : (q2 : ℚ) + (q1 : ℚ) = (q1 : ℚ) + (q2 : ℚ) := add_comm ..
  have e3 : q2 + q1 = q1 + q2 := add_comm ..
  rw [e1, e2, e3]

/-- C9 witness: the spec's example, Buy("ABC",10,10) and Buy("ABC",10,20)
in both orders. -/
theorem C9_buy_buy_comm_witness :
    ∃ c1 c2,
      ((buyCore (buyCore [] "ABC".data 10 10).2 "ABC".data 10 20).2)[(0 : Nat)]? =
        some ⟨"ABC".data, (10 : Int) + 10,
          (((10 : Int) : ℚ) * 10 + ((10 : Int) : ℚ) * 20) /
            (((10 : Int) : ℚ) + ((10 : Int) : ℚ)), c1⟩ ∧
      ((buyCore (buyCore [] "ABC".data 10 20).2 "ABC".data 10 10).2)[(0 : Nat)]? =
        some ⟨"ABC".data, (10 : Int) + 10,
          (((10 : Int) : ℚ) * 10 + ((10 : Int) : ℚ) * 20) /
            (((10 : Int) : ℚ) + ((10 : Int) : ℚ)), c2⟩ :=
  C9_buy_buy_comm [] "ABC".data 10 10 10 20 (by norm_num) (by norm_num)
    (by norm_num) (by norm_num) (by decide) (by decide) (by decide)

/- ------------------------------------------------------------------ -/
/- Lemmas about loadAux, updAll and the invariant                      -/
/- ------------------------------------------------------------------ -/

theorem set_getElem_self {α : Type} :
    ∀ (l : List α) (i : Nat) (a : α), l[i]? = some a → l.set i a = l := by
  intro l
  induction l with
  | nil => intro i a h; simp at h
  | cons b t ih =>
    intro i a h
    cases i with
    | zero =>
      simp only [List.getElem?_cons_zero, Option.some.injEq] at h
      simp [h]
    | succ j =>
      simp only [List.getElem?_cons_succ] at h
      simp [List.set, ih j a h]

theorem loadAux_eq (ls : List Str) :
    ∀ (acc : List Stock) (n : Nat), acc.length ≤ MAX_STOCKS →
      loadAux acc n ls =
        (acc ++ (ls.filterMap parseLine).take (MAX_STOCKS - acc.length),
          n + min (MAX_STOCKS - acc.length) (ls.filterMap parseLine).length) := by
  induction ls with
  | nil => intro acc n _; simp [loadAux]
  | cons l t ih =>
    intro acc n h
    cases hp : parseLine l with
    | none =>
      simp only [loadAux, hp, List.filterMap_cons_none hp, ih acc n h]
    | some r =>
      by_cases hlen : acc.length < MAX_STOCKS
      · have hsub : MAX_STOCKS - acc.length = (MAX_STOCKS - (acc.length + 1)) + 1 := by
          omega
        simp only [loadAux, hp, if_pos hlen]
        rw [ih (acc ++ [r]) (n + 1) (by simpa using hlen)]
        rw [List.filterMap_cons_some hp, Prod.mk.injEq]
        refine ⟨?_, ?_⟩
        · rw [hsub, List.take_succ_cons]
          simp
        · simp only [List.length_append, List.length_cons, List.length_nil]
          omega
      · have hM : MAX_STOCKS - acc.length = 0 := by omega
        simp only [loadAux, hp, if_neg hlen, ih acc n h, hM]
        simp

theorem updAll_symqty :
    ∀ (st : List Stock) (inps : List Str),
      ((updAll st inps).1).map (fun s => (s.symbol, s.qty)) =
        st.map (fun s => (s.symbol, s.qty)) := by
  intro st
  induction st with
  | nil => intro inps; simp [updAll]
  | cons s t ih =>
    intro inps
    cases inps with
    | nil => simp [updAll]
    | cons inp rest =>
      by_cases hb : inp = ([] : Str)
      · simp [updAll, hb, ih rest]
      · cases hp : parse_double inp with
        | none => simp [updAll, hb, hp, ih rest]
        | some p =>
          by_cases hple : p ≤ 0
          · simp [updAll, hb, hp, hple, ih rest]
          · simp [updAll, hb, hp, hple, ih rest]

theorem updAll_zip :
    ∀ (st : List Stock) (inps : List Str), st.length ≤ inps.length →
      (updAll st inps).1 = List.zipWith repriceStep st inps := by
  intro st
  induction st with
  | nil => intro inps _; simp [updAll]
  | cons s t ih =>
    intro inps hlen
    cases inps with
    | nil => simp at hlen
    | cons inp rest =>
      have hrec := ih rest (by simpa using hlen)
      by_cases hb : inp = ([] : Str)
      · simp [updAll, hb, hrec, repriceStep]
      · cases hp : parse_double inp with
        | none => simp [updAll, hb, hp, hrec, repriceStep]
        | some p =>
          by_cases hple : p ≤ 0
          · simp [updAll, hb, hp, hple, hrec, repriceStep]
          · simp [updAll, hb, hp, hple, hrec, repriceStep]

theorem updAll_last_msg :
    ∀ (st : List Stock) (inps : List Str), st.length ≤ inps.length →
      (updAll st inps).2.getLast? = some Msg.allProcessed := by
  intro st
  induction st with
  | nil => intro inps _; simp [updAll]
  | cons s t ih =>
    intro inps hlen
    cases inps with
    | nil => simp at hlen
    | cons inp rest =>
      have hrec := ih rest (by simpa using hlen)
      have hne : (updAll t rest).2 ≠ [] := by
        intro hnil
        rw [hnil] at hrec
        simp at hrec
      by_cases hb : inp = ([] : Str)
      · simp [updAll, hb, hrec]
      · cases hp : parse_double inp with
        | none => simp [updAll, hb, hp, List.getLast?_cons, hne, hrec]
        | some p =>
          by_cases hple : p ≤ 0
          · simp [updAll, hb, hp, hple, List.getLast?_cons, hne, hrec]
          · simp [updAll, hb, hp, hple, hrec]

theorem normSym_len (s : Str) : (normSym s).length ≤ 15 := by
  simp only [normSym, strtoupper, snprintf15, List.length_map, List.length_take]
  exact min_le_left ..

theorem inv_set_samesym (st : List Stock) (i : Nat) (s t : Stock)
    (hg : st[i]? = some s) (hsym : t.symbol = s.symbol) (hqty : 0 < t.qty)
    (hI : Inv st) : Inv (st.set i t) := by
  obtain ⟨hq, hnd, hlen⟩ := hI
  refine ⟨?_, ?_, ?_⟩
  · intro u hu
    rcases List.mem_or_eq_of_mem_set hu with h1 | h2
    · exact hq u h1
    · rw [h2]; exact hqty
  · rw [List.map_set, hsym]
    rw [set_getElem_self (st.map Stock.symbol) i s.symbol
      (by rw [List.getElem?_map, hg]; rfl)]
    exact hnd
  · simpa using hlen

theorem inv_buyCore (st : List Stock) (sym : Str) (q : Int) (p : ℚ)
    (hI : Inv st) (hq : 0 < q) (hs15 : sym.length ≤ 15) :
    Inv (buyCore st sym q p).2 := by
  have htr : snprintf15 sym = sym := List.take_of_length_le hs15
  unfold buyCore
  cases hf : find_index st sym with
  | some i =>
    obtain ⟨s, hg, hsy⟩ := find_index_some_spec sym st i hf
    simp only [hg]
    have hsq : 0 < s.qty := hI.1 s (List.getElem?_mem hg)
    exact inv_set_samesym st i s _ hg rfl (by simp; omega) hI
  | none =>
    by_cases hcap : st.length < MAX_STOCKS
    · simp only [if_pos hcap]
      obtain ⟨hqp, hnd, _⟩ := hI
      refine ⟨?_, ?_, ?_⟩
      · intro u hu
        rcases List.mem_append.mp hu with h1 | h2
        · exact hqp u h1
        · simp at h2
          rw [h2]
          exact hq
      · rw [List.map_append]
        simp only [List.map_cons, List.map_nil, htr]
        rw [List.nodup_append]
        refine ⟨hnd, List.nodup_singleton _, ?_⟩
        intro a ha hb
        simp at hb
        rw [hb] at ha
        obtain ⟨u, hu, hus⟩ := List.mem_map.mp ha
        exact (find_index_eq_none_iff sym st).mp hf u hu hus
      · simp
        omega
    · simp only [if_neg hcap]
      exact hI

theorem inv_sellCore (st : List Stock) (i : Nat) (q : Int) (p : ℚ)
    (hI : Inv st) : Inv (sellCore st i q p).2 := by
  unfold sellCore
  cases hg : st[i]? with
  | none => exact hI
  | some s =>
    by_cases hins : s.qty < q
    · simp only [if_pos hins]
      exact hI
    · simp only [if_neg hins]
      by_cases hz : s.qty - q = 0
      · simp only [if_pos hz, eraseIdx_set_self]
        obtain ⟨hqp, hnd, hlen⟩ := hI
        refine ⟨?_, ?_, ?_⟩
        · intro u hu
          exact hqp u ((st.eraseIdx_sublist i).mem hu)
        · rw [map_eraseIdx]
          exact hnd.sublist (List.eraseIdx_sublist _ i)
        · calc (st.eraseIdx i).length ≤ st.length := (st.eraseIdx_sublist i).length_le
            _ ≤ MAX_STOCKS := hlen
      · simp only [if_neg hz]
        exact inv_set_samesym st i s _ hg rfl (by simp; omega) hI

theorem inv_updAll (st : List Stock) (inps : List Str) (hI : Inv st) :
    Inv (updAll st inps).1 := by
  obtain ⟨hq, hnd, hlen⟩ := hI
  have hsq := updAll_symqty st inps
  refine ⟨?_, ?_, ?_⟩
  · intro u hu
    have : (u.symbol, u.qty) ∈ st.map (fun s => (s.symbol, s.qty)) := by
      rw [← hsq]
      exact List.mem_map_of_mem _ hu
    obtain ⟨v, hv, hvu⟩ := List.mem_map.mp this
    have : v.qty = u.qty := congrArg Prod.snd hvu
    rw [← this]
    exact hq v hv
  · have : ((updAll st inps).1).map Stock.symbol = st.map Stock.symbol := by
      have h1 := congrArg (List.map Prod.fst) hsq
      simpa [List.map_map, Function.comp] using h1
    rw [this]
    exact hnd
  · have h2 := congrArg List.length hsq
    simp only [List.length_map] at h2
    rw [h2]
    exact hlen

theorem inv_buy (st : List Stock) (inp : List Str) (hI : Inv st) :
    Inv (buy st inp).2 := by
  unfold buy
  repeat' split
  all_goals first
    | exact hI
    | exact inv_buyCore st _ _ _ hI (by omega) (normSym_len _)

theorem inv_sell (st : List Stock) (inp : List Str) (hI : Inv st) :
    Inv (sell st inp).2 := by
  unfold sell
  repeat' split
  all_goals first
    | exact hI
    | exact inv_sellCore st _ _ _ hI

theorem inv_update_prices (st : List Stock) (inp : List Str) (hI : Inv st) :
    Inv (update_prices st inp).1 := by
  unfold update_prices
  cases inp with
  | nil => exact hI
  | cons l rest =>
    dsimp only
    by_cases h0 : l.length = 0
    · rw [if_pos h0]; exact hI
    · rw [if_neg h0]
      by_cases hall : normSym l = "ALL".data
      · rw [if_pos hall]
        by_cases hemp : st.length = 0
        · rw [if_pos hemp]; exact hI
        · rw [if_neg hemp]; exact inv_updAll st rest hI
      · rw [if_neg hall]
        cases hf : find_index st (normSym l) with
        | none => simp only [hf]; exact hI
        | some i =>
          simp only [hf]
          cases hg : st[i]? with
          | none => simp only [hg]; exact hI
          | some s =>
            simp only [hg]
            cases rest with
            | nil => exact hI
            | cons priceLine tail =>
              dsimp only
              cases hpd : parse_double priceLine with
              | none => simp only [hpd]; exact hI
              | some p =>
                simp only [hpd]
                by_cases hp : p ≤ 0
                · rw [if_pos hp]; exact hI
                · rw [if_neg hp]
                  exact inv_set_samesym st i s _ hg rfl
                    (hI.1 s (List.getElem?_mem hg)) hI

/- ------------------------------------------------------------------ -/
/- C1: invariants at mutation boundaries                               -/
/- ------------------------------------------------------------------ -/

/-- C1 counterexample: load_file stores a quantity-0 record from the file
without validation, so the stored-Holding invariant quantity > 0 does not
hold after the load operation completes. -/
theorem C1_counterexample :
    (load_file [] (some ["X 0 1 1".data])).2 = [⟨"X".data, 0, 1, 1⟩] ∧
      ¬Inv [(⟨"X".data, 0, 1, 1⟩ : Stock)] := by
  constructor
  · have hup : strtoupper "X".data = "X".data := by decide
    simp [load_file, loadAux, parseLine, scanSym15, scanInt, scanDoubleB,
      hexTail, scanExp, scanSign, scanDigits, isDigitC, isSpaceC, hup,
      snprintf15, MAX_STOCKS]
  · intro h
    have := h.1 ⟨"X".data, 0, 1, 1⟩ (by simp)
    simp at this

/-- C1 (amended): buy, sell and reprice preserve the ledger invariants
(quantity > 0, unique symbols, capacity ≤ 100) from any state satisfying
them; load respects the capacity bound unconditionally, and preserves the
full invariant provided the file reads as in-model rational data (no
inf/nan lines) whose well-formed lines carry positive quantities and
pairwise-distinct symbols (load does not itself validate these); load on
an absent file leaves the ledger — and hence the invariants —
unchanged. -/
theorem C1_invariants (st : List Stock) (binp sinp uinp : List Str)
    (lines : List Str) (hI : Inv st) :
    Inv (buy st binp).2 ∧ Inv (sell st sinp).2 ∧
      Inv (update_prices st uinp).1 ∧
      (load_file st (some lines)).2.length ≤ MAX_STOCKS ∧
      (goodFile lines → Inv (load_file st (some lines)).2) ∧
      Inv (load_file st none).2 := by
  have hload : (load_file st (some lines)).2 =
      (lines.filterMap parseLine).take MAX_STOCKS := by
    simp only [load_file]
    rw [loadAux_eq lines [] 0 (by simp)]
    simp
  refine ⟨inv_buy st binp hI, inv_sell st sinp hI,
    inv_update_prices st uinp hI, ?_, ?_, hI⟩
  · rw [hload]
    simp [List.length_take]
  · intro hgf
    rw [hload]
    refine ⟨?_, ?_, ?_⟩
    · intro s hs
      exact hgf.2.1 s (List.take_subset _ _ hs)
    · rw [List.map_take]
      exact hgf.2.2.sublist (List.take_sublist _ _)
    · simp [List.length_take]

/-- C1 witness: instantiation at the empty ledger and empty inputs. -/
theorem C1_invariants_witness :
    Inv (buy [] []).2 ∧ Inv (sell [] []).2 ∧
      Inv (update_prices [] []).1 ∧
      (load_file [] (some [])).2.length ≤ MAX_STOCKS ∧
      (goodFile [] → Inv (load_file [] (some [])).2) ∧
      Inv (load_file [] none).2 :=
  C1_invariants [] [] [] [] [] (by simp [Inv])

/- ------------------------------------------------------------------ -/
/- C6: load with an absent file                                        -/
/- ------------------------------------------------------------------ -/

/-- C6 counterexample: with a nonempty in-memory ledger and an absent
file (failing fopen), load returns early with the ledger unchanged — the
resulting in-memory Ledger is not empty, because the clear (count = 0)
happens only after a successful fopen. -/
theorem C6_counterexample :
    (load_file [⟨"ABC".data, 1, 1, 1⟩] none).2 ≠ ([] : List Stock) := by
  simp [load_file]

/-- C6 (amended): when the file opens, Load clears the Ledger first and
fully replaces it (the result does not depend on the prior in-memory
state); when the target file is absent, Load is not an error but leaves
the in-memory Ledger unchanged rather than clearing it. -/
theorem C6_load_replaces (st st' : List Stock) (lines : List Str) :
    (load_file st (some lines)).2 = (load_file st' (some lines)).2 ∧
      load_file st none = (none, st) :=
  ⟨rfl, rfl⟩

/- ------------------------------------------------------------------ -/
/- C7: load parses lines independently                                 -/
/- ------------------------------------------------------------------ -/

/-- C7 counterexample: a line with five fields has the wrong field count
for the 4-field format, yet load stores it (sscanf ignores trailing
content after the fourth conversion) — the claim says such a line is
skipped. -/
theorem C7_counterexample :
    load_file [] (some ["ABC 1 2.0 3.0 junk".data]) =
      (some 1, [⟨"ABC".data, 1, 2, 3⟩]) := by
  have hup : strtoupper "ABC".data = "ABC".data := by decide
  simp [load_file, loadAux, parseLine, scanSym15, scanInt, scanDoubleB,
    hexTail, scanExp, scanSign, scanDigits, isDigitC, isSpaceC, hup,
    snprintf15, MAX_STOCKS]

/-- C7 (amended): load parses each line independently with
sscanf("%15s %d %lf %lf"), where %lf accepts the full strtod number
syntax (including hexadecimal significands) under scanf's reading
discipline — a field that is only a prefix of a number (such as an
exponent marker with no digits) is a matching failure; a line whose
first four fields cannot all be scanned (too few fields, a quantity or
price not forming a number) is skipped without aborting, while content
after the fourth field is ignored; every scannable line is loaded up to
the capacity of 100, and the reported count equals the number of
Holdings actually stored. E.g. one valid line plus one line with a
non-numeric quantity yields exactly one loaded Holding and a reported
count of 1. Stated for files none of whose lines reads as an IEEE
inf/nan, values outside the rational data model. -/
theorem C7_load_skips (st : List Stock) (lines : List Str)
    (hns : ∀ l ∈ lines, specialLine l = false) :
    load_file st (some lines) =
      (some ((lines.filterMap parseLine).take MAX_STOCKS).length,
        (lines.filterMap parseLine).take MAX_STOCKS) ∧
      load_file [] (some ["ABC 10 10.5 11.5".data, "ABC x 10 10".data]) =
        (some 1, [⟨"ABC".data, 10, 21/2, 23/2⟩]) := by
  constructor
  · simp only [load_file]
    rw [loadAux_eq lines [] 0 (by simp)]
    simp [List.length_take]
  · have hup : strtoupper "ABC".data = "ABC".data := by decide
    simp [load_file, loadAux, parseLine, scanSym15, scanInt, scanDoubleB,
      hexTail, scanExp, scanSign, scanDigits, isDigitC, isSpaceC, hup,
      snprintf15, MAX_STOCKS]
    norm_num

/-- C7 witness: a concrete one-line in-model file. -/
theorem C7_load_skips_witness :
    load_file [] (some ["X 1 2 3".data]) =
      (some (((["X 1 2 3".data] : List Str).filterMap parseLine).take
          MAX_STOCKS).length,
        ((["X 1 2 3".data] : List Str).filterMap parseLine).take MAX_STOCKS) ∧
      load_file [] (some ["ABC 10 10.5 11.5".data, "ABC x 10 10".data]) =
        (some 1, [⟨"ABC".data, 10, 21/2, 23/2⟩]) :=
  C7_load_skips [] ["X 1 2 3".data] (by decide)

/- ------------------------------------------------------------------ -/
/- C8: bulk reprice                                                    -/
/- ------------------------------------------------------------------ -/

/-- C8 counterexample: bulk reprice ends with the same fixed completion
message whether it applied two updates or zero, so the operation does not
report how many price updates were actually applied. -/
theorem C8_counterexample :
    (updAll [⟨"A".data, 1, 1, 1⟩, ⟨"B".data, 1, 1, 1⟩]
        ["2".data, "3".data]).1 =
      [⟨"A".data, 1, 1, 2⟩, ⟨"B".data, 1, 1, 3⟩] ∧
    (updAll [⟨"A".data, 1, 1, 1⟩, ⟨"B".data, 1, 1, 1⟩]
        [[], []]).1 =
      [⟨"A".data, 1, 1, 1⟩, ⟨"B".data, 1, 1, 1⟩] ∧
    (updAll [⟨"A".data, 1, 1, 1⟩, ⟨"B".data, 1, 1, 1⟩]
        ["2".data, "3".data]).2 =
      (updAll [⟨"A".data, 1, 1, 1⟩, ⟨"B".data, 1, 1, 1⟩] [[], []]).2 := by
  refine ⟨?_, ?_, ?_⟩ <;>
    simp [updAll, parse_double, scanDouble, scanDoubleB, hexTail, scanExp,
      scanSign, scanDigits, isDigitC, isSpaceC] <;> norm_num

/-- C8 (amended): for a nonempty Ledger, bulk reprice (the ALL sentinel
matched case-insensitively via the same normalization as other symbol
input) visits every Holding in Ledger order, one supplied line per
Holding; a blank, unparseable or non-positive price (parsed with the full
strtod syntax, hexadecimal significands included) leaves that Holding's
current price unchanged and processing continues (one bad entry never
aborts the batch, given an input line per holding); a valid price is
applied; on completion the operation prints the fixed completion message,
which carries no count of applied updates. Stated for price inputs that
do not read as IEEE inf/nan, values outside the rational data model. -/
theorem C8_bulk_reprice (st : List Stock) (al : Str) (inputs : List Str)
    (hne : st ≠ []) (hal : al ≠ []) (hall : normSym al = "ALL".data)
    (hlen : st.length ≤ inputs.length)
    (hns : ∀ l ∈ inputs, specialD l = false) :
    (update_prices st (al :: inputs)).1 = List.zipWith repriceStep st inputs ∧
      (∀ (s : Stock) (inp : Str),
        (inp = [] ∨ parse_double inp = none ∨
            ∀ p, parse_double inp = some p → p ≤ 0) →
          repriceStep s inp = s) ∧
      (update_prices st (al :: inputs)).2.getLast? = some Msg.allProcessed := by
  have h0 : ¬al.length = 0 := by simpa [List.length_eq_zero] using hal
  have hne0 : ¬st.length = 0 := by simpa [List.length_eq_zero] using hne
  have hred : update_prices st (al :: inputs) = updAll st inputs := by
    unfold update_prices
    dsimp only
    rw [if_neg h0, if_pos hall, if_neg hne0]
  refine ⟨?_, ?_, ?_⟩
  · rw [hred]
    exact updAll_zip st inputs hlen
  · intro s inp hbad
    unfold repriceStep
    by_cases hemp : inp = ([] : Str)
    · rw [if_pos hemp]
    · rw [if_neg hemp]
      rcases hbad with hb | hn | hle
      · exact absurd hb hemp
      · simp [hn]
      · cases hp : parse_double inp with
        | none => simp [hp]
        | some p =>
          simp only [hp]
          rw [if_pos (hle p hp)]
  · rw [hred]
    exact updAll_last_msg st inputs hlen

/-- C8 witness: one holding, lowercase sentinel, one price line. -/
theorem C8_bulk_reprice_witness :
    (update_prices [⟨"A".data, 1, 1, 1⟩] ["all".data, "5".data]).1 =
      List.zipWith repriceStep [⟨"A".data, 1, 1, 1⟩] ["5".data] ∧
      (∀ (s : Stock) (inp : Str),
        (inp = [] ∨ parse_double inp = none ∨
            ∀ p, parse_double inp = some p → p ≤ 0) →
          repriceStep s inp = s) ∧
      (update_prices [⟨"A".data, 1, 1, 1⟩]
        ["all".data, "5".data]).2.getLast? = some Msg.allProcessed :=
  C8_bulk_reprice [⟨"A".data, 1, 1, 1⟩] "all".data ["5".data]
    (by simp) (by simp) (by decide) (by simp) (by decide)

/- ------------------------------------------------------------------ -/
/- C10: symbol truncation and case-insensitive collision               -/
/- ------------------------------------------------------------------ -/

theorem takeWhile_append_stop (p : Char → Bool) :
    ∀ (l : Str) (y : Char) (r : Str), (∀ c ∈ l, p c = true) → p y = false →
      (l ++ y :: r).takeWhile p = l := by
  intro l
  induction l with
  | nil =>
    intro y r _ hy
    simp [List.takeWhile_cons, hy]
  | cons a t ih =>
    intro y r hall hy
    simp [List.takeWhile_cons, hall a (by simp),
      ih y r (fun c hc => hall c (by simp [hc])) hy]

theorem scanSym15_token (symTok rest : Str) (hne : symTok ≠ [])
    (hws : ∀ c ∈ symTok, isSpaceC c = false) :
    ∃ rem, scanSym15 (symTok ++ ' ' :: rest) = some (symTok.take 15, rem) := by
  obtain ⟨a, t, rfl⟩ : ∃ a t, symTok = a :: t := by
    cases symTok with
    | nil => exact absurd rfl hne
    | cons a t => exact ⟨a, t, rfl⟩
  have hdrop : ((a :: t) ++ ' ' :: rest).dropWhile isSpaceC =
      (a :: t) ++ ' ' :: rest := by
    simp [List.dropWhile_cons, hws a (by simp)]
  have htake : ((a :: t) ++ ' ' :: rest).takeWhile (fun c => !isSpaceC c) =
      a :: t :=
    takeWhile_append_stop _ (a :: t) ' ' rest
      (fun c hc => by simp [hws c hc]) (by simp [isSpaceC])
  refine ⟨((a :: t) ++ ' ' :: rest).drop ((a :: t).take 15).length, ?_⟩
  simp only [scanSym15]
  rw [hdrop, htake]
  simp [List.take_cons]

/-- C10: the stored symbol is the uppercased 15-character truncation of
the supplied symbol, on both Buy (which truncates then uppercases the
whole input line) and Load (where %15s reads at most the first 15
characters of the first field, which is then uppercased); consequently
two inputs whose first 15 characters agree case-insensitively denote the
same Holding, and a Buy with the colliding symbol merges into the
existing Holding (updated outcome, ledger size unchanged) instead of
creating a new one. -/
theorem C10_symbol_truncation (st : List Stock) (s1 s2 : Str)
    (q1 q2 : Int) (p1 p2 : ℚ) (symTok rest : Str) (r : Stock)
    (hq1 : 0 < q1) (hq2 : 0 < q2) (hp1 : 0 < p1) (hp2 : 0 < p2)
    (hcoll : strtoupper (s1.take 15) = strtoupper (s2.take 15))
    (hfree : find_index st (normSym s1) = none)
    (hcap : st.length < MAX_STOCKS)
    (htokne : symTok ≠ []) (htokws : ∀ c ∈ symTok, isSpaceC c = false)
    (hparse : parseLine (symTok ++ ' ' :: rest) = some r) :
    (buyCore st (normSym s1) q1 p1).2 =
        st ++ [⟨strtoupper (s1.take 15), q1, p1, p1⟩] ∧
      (buyCore (st ++ [⟨strtoupper (s1.take 15), q1, p1, p1⟩])
          (normSym s2) q2 p2).1 = BuyOut.updated ∧
      (buyCore (st ++ [⟨strtoupper (s1.take 15), q1, p1, p1⟩])
          (normSym s2) q2 p2).2.length = st.length + 1 ∧
      r.symbol = strtoupper (symTok.take 15) := by
  have hnorm1 : normSym s1 = strtoupper (s1.take 15) := rfl
  have hnorm2 : normSym s2 = strtoupper (s1.take 15) := by
    rw [normSym, snprintf15, ← hcoll]
  have hlen15 : (strtoupper (s1.take 15)).length ≤ 15 := by
    simp only [strtoupper, List.length_map, List.length_take]
    exact min_le_left ..
  have htr : snprintf15 (normSym s1) = normSym s1 :=
    List.take_of_length_le (by rw [hnorm1]; exact hlen15)
  refine ⟨?_, ?_, ?_, ?_⟩
  · unfold buyCore
    simp only [hfree]
    rw [if_pos hcap, htr, hnorm1]
  · unfold buyCore
    rw [hnorm2, find_index_append_one st _ _ (by rw [← hnorm1]; exact hfree)]
    simp
  · unfold buyCore
    rw [hnorm2, find_index_append_one st _ _ (by rw [← hnorm1]; exact hfree)]
    simp
  · obtain ⟨rem, hscan⟩ := scanSym15_token symTok rest htokne htokws
    unfold parseLine at hparse
    rw [hscan] at hparse
    dsimp only at hparse
    cases h1 : scanInt rem with
    | none => rw [h1] at hparse; exact absurd hparse (by simp)
    | some v =>
      obtain ⟨q', r2⟩ := v
      rw [h1] at hparse
      dsimp only at hparse
      cases h2 : scanDoubleB false r2 with
      | none => rw [h2] at hparse; exact absurd hparse (by simp)
      | some w =>
        obtain ⟨bp, r3⟩ := w
        rw [h2] at hparse
        dsimp only at hparse
        cases h3 : scanDoubleB false r3 with
        | none => rw [h3] at hparse; exact absurd hparse (by simp)
        | some u =>
          obtain ⟨cp, r4⟩ := u
          rw [h3] at hparse
          dsimp only at hparse
          simp only [Option.some.injEq] at hparse
          rw [← hparse]
          show snprintf15 (strtoupper (symTok.take 15)) = strtoupper (symTok.take 15)
          rw [snprintf15, strtoupper, ← List.map_take, List.take_take]
          simp

/-- C10 witness: a 16-character lowercase buy symbol collides with the
15-A uppercase symbol; a 16-character load field is truncated to 15. -/
theorem C10_symbol_truncation_witness :
    (buyCore [] (normSym "aaaaaaaaaaaaaaaa".data) 1 1).2 =
        [] ++ [⟨strtoupper ("aaaaaaaaaaaaaaaa".data.take 15), 1, 1, 1⟩] ∧
      (buyCore ([] ++ [⟨strtoupper ("aaaaaaaaaaaaaaaa".data.take 15), 1, 1, 1⟩])
          (normSym "AAAAAAAAAAAAAAAB".data) 1 1).1 = BuyOut.updated ∧
      (buyCore ([] ++ [⟨strtoupper ("aaaaaaaaaaaaaaaa".data.take 15), 1, 1, 1⟩])
          (normSym "AAAAAAAAAAAAAAAB".data) 1 1).2.length =
        List.length ([] : List Stock) + 1 ∧
      (⟨"ABCDEFGHIJKLMNO".data, 7, 3/2, 5/2⟩ : Stock).symbol =
        strtoupper ("abcdefghijklmno7".data.take 15) :=
  C10_symbol_truncation [] "aaaaaaaaaaaaaaaa".data "AAAAAAAAAAAAAAAB".data
    1 1 1 1 "abcdefghijklmno7".data "1.5 2.5".data
    ⟨"ABCDEFGHIJKLMNO".data, 7, 3/2, 5/2⟩
    (by norm_num) (by norm_num) (by norm_num) (by norm_num)
    (by decide) (by decide) (by decide) (by decide) (by decide)
    (by
      have h1 : scanSym15 ("abcdefghijklmno7".data ++ ' ' :: "1.5 2.5".data) =
          some ("abcdefghijklmno".data, "7 1.5 2.5".data) := by decide
      have h2 : scanInt "7 1.5 2.5".data = some (7, " 1.5 2.5".data) := by
        decide
      have h3 : scanDoubleB false " 1.5 2.5".data = some (3/2, " 2.5".data) := by
        simp [scanDoubleB, hexTail, scanExp, scanSign, scanDigits, isDigitC,
          isSpaceC]
        norm_num
      have h4 : scanDoubleB false " 2.5".data = some (5/2, ([] : Str)) := by
        simp [scanDoubleB, hexTail, scanExp, scanSign, scanDigits, isDigitC,
          isSpaceC]
        norm_num
      unfold parseLine
      rw [h1]
      dsimp only
      rw [h2]
      dsimp only
      rw [h3]
      dsimp only
      rw [h4]
      dsimp only
      rw [show snprintf15 (strtoupper "abcdefghijklmno".data) =
        "ABCDEFGHIJKLMNO".data from by decide])

/- ------------------------------------------------------------------ -/
/- C3: decimal digit arithmetic                                        -/
/- ------------------------------------------------------------------ -/

theorem toDigsAux_fuel :
    ∀ (f1 n : Nat), n ≤ f1 → ∀ f2, n ≤ f2 → toDigsAux f1 n = toDigsAux f2 n := by
  intro f1
  induction f1 with
  | zero =>
    intro n hn f2 _
    interval_cases n
    cases f2 with
    | zero => rfl
    | succ g => rfl
  | succ g ih =>
    intro n hn f2 hn2
    cases n with
    | zero =>
      cases f2 with
      | zero => rfl
      | succ h => rfl
    | succ m =>
      cases f2 with
      | zero => omega
      | succ h =>
        show toDigsAux g ((m + 1) / 10) ++ [(m + 1) % 10] =
          toDigsAux h ((m + 1) / 10) ++ [(m + 1) % 10]
        have hd : (m + 1) / 10 ≤ m := by omega
        rw [ih ((m + 1) / 10) (by omega) h (by omega)]

theorem toDigs_eq (n : Nat) (hn : n ≠ 0) :
    toDigs n = toDigs (n / 10) ++ [n % 10] := by
  obtain ⟨m, rfl⟩ : ∃ m, n = m + 1 := ⟨n - 1, by omega⟩
  have h1 : toDigs (m + 1) = toDigsAux m ((m + 1) / 10) ++ [(m + 1) % 10] := rfl
  rw [h1, toDigsAux_fuel m ((m + 1) / 10) (by omega) ((m + 1) / 10) (le_refl _)]
  rfl

theorem toDigs_lt10 (n : Nat) : ∀ d ∈ toDigs n, d < 10 := by
  induction n using Nat.strong_induction_on with
  | _ n ih =>
    by_cases hn : n = 0
    · subst hn
      intro d hd
      simp [toDigs, toDigsAux] at hd
    · rw [toDigs_eq n hn]
      intro d hd
      rcases List.mem_append.mp hd with h1 | h2
      · exact ih (n / 10) (Nat.div_lt_self (by omega) (by omega)) d h1
      · simp at h2
        omega

theorem valBE_foldl (l : List Nat) :
    ∀ acc, l.foldl (fun a d => 10 * a + d) acc =
      acc * 10 ^ l.length + valBE l := by
  induction l with
  | nil => intro acc; simp [valBE]
  | cons d t ih =>
    intro acc
    show t.foldl _ (10 * acc + d) = _
    rw [ih (10 * acc + d)]
    have hv : valBE (d :: t) = d * 10 ^ t.length + valBE t := by
      show t.foldl _ (10 * 0 + d) = _
      rw [ih (10 * 0 + d)]
      ring
    rw [hv]
    simp [List.length_cons]
    ring

theorem valBE_append_digit (A : List Nat) (d : Nat) :
    valBE (A ++ [d]) = valBE A * 10 + d := by
  show (A ++ [d]).foldl _ 0 = _
  rw [List.foldl_append]
  show (10 * A.foldl _ 0 + d) = _
  show (10 * valBE A + d) = _
  ring

theorem valBE_toDigs (n : Nat) : valBE (toDigs n) = n := by
  induction n using Nat.strong_induction_on with
  | _ n ih =>
    by_cases hn : n = 0
    · subst hn; rfl
    · rw [toDigs_eq n hn, valBE_append_digit,
        ih (n / 10) (Nat.div_lt_self (by omega) (by omega))]
      omega

theorem toDigs_len_bounds (n : Nat) (hn : n ≠ 0) :
    10 ^ ((toDigs n).length - 1) ≤ n ∧ n < 10 ^ (toDigs n).length := by
  induction n using Nat.strong_induction_on with
  | _ n ih =>
    by_cases hsm : n < 10
    · have h1 : n / 10 = 0 := by omega
      rw [toDigs_eq n hn, h1]
      show 10 ^ (List.length (toDigs 0 ++ [n % 10]) - 1) ≤ n ∧
        n < 10 ^ List.length (toDigs 0 ++ [n % 10])
      have h2 : (toDigs 0 ++ [n % 10]).length = 1 := by rfl
      rw [h2]
      constructor
      · simpa using Nat.one_le_iff_ne_zero.mpr hn
      · simpa using hsm
    · have hd0 : n / 10 ≠ 0 := by omega
      obtain ⟨hlo, hhi⟩ := ih (n / 10) (Nat.div_lt_self (by omega) (by omega)) hd0
      rw [toDigs_eq n hn]
      have hlen : (toDigs (n / 10) ++ [n % 10]).length =
          (toDigs (n / 10)).length + 1 := by simp
      have hL : (toDigs (n / 10)).length ≠ 0 := by
        intro h0
        rw [List.length_eq_zero] at h0
        have := valBE_toDigs (n / 10)
        rw [h0] at this
        exact hd0 (by simpa [valBE] using this.symm)
      rw [hlen]
      constructor
      · have : 10 ^ ((toDigs (n / 10)).length + 1 - 1) =
            10 * 10 ^ ((toDigs (n / 10)).length - 1) := by
          rw [Nat.add_sub_cancel]
          rw [← pow_succ']
          congr 1
          omega
        rw [this]
        calc 10 * 10 ^ ((toDigs (n / 10)).length - 1) ≤ 10 * (n / 10) :=
              Nat.mul_le_mul_left 10 hlo
          _ ≤ n := Nat.mul_div_le n 10
      · have h3 : n < 10 * (n / 10 + 1) := by omega
        calc n < 10 * (n / 10 + 1) := h3
          _ ≤ 10 * 10 ^ (toDigs (n / 10)).length :=
              Nat.mul_le_mul_left 10 (by omega)
          _ = 10 ^ ((toDigs (n / 10)).length + 1) := (pow_succ' 10 _).symm

theorem toDigs_len_eq (n k : Nat) (hlo : 10 ^ k ≤ n) (hhi : n < 10 ^ (k + 1)) :
    (toDigs n).length = k + 1 := by
  have hn : n ≠ 0 := by
    intro h0
    rw [h0] at hlo
    have hp : 0 < 10 ^ k := pow_pos (by omega) k
    omega
  obtain ⟨h1, h2⟩ := toDigs_len_bounds n hn
  set L := (toDigs n).length with hL
  have hL0 : L ≠ 0 := by
    intro h0
    rw [h0] at h2
    omega
  by_contra hne
  rcases Nat.lt_or_ge L (k + 1) with hlt | hge
  · have : n < 10 ^ k := lt_of_lt_of_le h2 (Nat.pow_le_pow_right (by omega) (by omega))
    omega
  · have hge2 : k + 2 ≤ L := by omega
    have : 10 ^ (k + 1) ≤ 10 ^ (L - 1) := Nat.pow_le_pow_right (by omega) (by omega)
    omega

theorem digitChar_isDigit (d : Nat) (hd : d < 10) :
    isDigitC (digitChar d) = true := by
  interval_cases d <;> decide

theorem digitChar_toNat (d : Nat) (hd : d < 10) :
    (digitChar d).toNat - 48 = d := by
  interval_cases d <;> decide

theorem digitChar_not_special (d : Nat) (hd : d < 10) :
    digitChar d ≠ '.' ∧ digitChar d ≠ 'e' ∧ digitChar d ≠ 'E' ∧
      digitChar d ≠ '-' ∧ digitChar d ≠ '+' ∧ isSpaceC (digitChar d) = false := by
  interval_cases d <;> decide

theorem digitChar_eq_zero_iff (d : Nat) (hd : d < 10) :
    digitChar d = '0' ↔ d = 0 := by
  interval_cases d <;> simp <;> decide

theorem scanSign_other (c : Char) (l : Str) (h1 : c ≠ '-') (h2 : c ≠ '+') :
    scanSign (c :: l) = (false, c :: l) := by
  unfold scanSign
  split
  · next heq => rw [List.cons.injEq] at heq; exact absurd heq.1 h1
  · next heq => rw [List.cons.injEq] at heq; exact absurd heq.1 h2
  · rfl

theorem scanExp_other (bk : Bool) (m : ℚ) (s : Str)
    (h : s = [] ∨ ∃ c t, s = c :: t ∧ c ≠ 'e' ∧ c ≠ 'E') :
    scanExp bk m s = some (m, s) := by
  unfold scanExp
  split
  · next t =>
    exfalso
    rcases h with h0 | ⟨c, t', hct, hce, _⟩
    · simp at h0
    · rw [List.cons.injEq] at hct
      exact hce hct.1.symm
  · next t =>
    exfalso
    rcases h with h0 | ⟨c, t', hct, _, hcE⟩
    · simp at h0
    · rw [List.cons.injEq] at hct
      exact hcE hct.1.symm
  · rfl

theorem scanDigits_render (ds : List Nat) :
    ∀ (acc cnt : Nat) (r : Str), (∀ d ∈ ds, d < 10) → stopsDigits r →
      scanDigits acc cnt (ds.map digitChar ++ r) =
        (acc * 10 ^ ds.length + valBE ds, cnt + ds.length, r) := by
  induction ds with
  | nil =>
    intro acc cnt r _ hr
    rcases hr with h0 | ⟨c, t, hct, hc⟩
    · subst h0; simp [scanDigits, valBE]
    · subst hct
      simp [scanDigits, hc, valBE]
  | cons d t ih =>
    intro acc cnt r hds hr
    have hd : d < 10 := hds d (by simp)
    show scanDigits acc cnt (digitChar d :: (t.map digitChar ++ r)) = _
    rw [show scanDigits acc cnt (digitChar d :: (t.map digitChar ++ r)) =
      if isDigitC (digitChar d)
      then scanDigits (10 * acc + ((digitChar d).toNat - 48)) (cnt + 1)
        (t.map digitChar ++ r)
      else (acc, cnt, digitChar d :: (t.map digitChar ++ r)) from rfl]
    rw [digitChar_isDigit d hd, if_pos rfl, digitChar_toNat d hd]
    rw [ih (10 * acc + d) (cnt + 1) r (fun x hx => hds x (by simp [hx])) hr]
    have hv : valBE (d :: t) = d * 10 ^ t.length + valBE t := by
      show t.foldl _ (10 * 0 + d) = _
      rw [valBE_foldl t (10 * 0 + d)]
      ring
    rw [hv]
    refine congrArg₂ Prod.mk ?_ ?_
    · simp only [List.length_cons]
      ring
    · refine congrArg₂ Prod.mk ?_ rfl
      simp only [List.length_cons]
      omega

theorem valBE_append (A B : List Nat) :
    valBE (A ++ B) = valBE A * 10 ^ B.length + valBE B := by
  show (A ++ B).foldl _ 0 = _
  rw [List.foldl_append]
  exact valBE_foldl B (A.foldl _ 0)

theorem valBE_all_zero : ∀ (l : List Nat), (∀ d ∈ l, d = 0) → valBE l = 0 := by
  intro l
  induction l with
  | nil => intro _; rfl
  | cons d t ih =>
    intro h
    have hd : d = 0 := h d (by simp)
    have hv : valBE (d :: t) = d * 10 ^ t.length + valBE t := by
      show t.foldl _ (10 * 0 + d) = _
      rw [valBE_foldl t (10 * 0 + d)]
      ring
    rw [hv, hd, ih (fun x hx => h x (by simp [hx]))]
    ring

theorem strip0_spec (l : Str) : ∃ k, l = strip0 l ++ List.replicate k '0' := by
  refine ⟨(l.reverse.takeWhile (· = '0')).length, ?_⟩
  have h1 : l.reverse.takeWhile (· = '0') ++ l.reverse.dropWhile (· = '0') =
      l.reverse := List.takeWhile_append_dropWhile ..
  have h2 : l.reverse.takeWhile (· = '0') =
      List.replicate (l.reverse.takeWhile (· = '0')).length '0' := by
    apply List.eq_replicate_length.mpr
    intro b hb
    have := List.mem_takeWhile_imp hb
    simpa using this
  calc l = l.reverse.reverse := (List.reverse_reverse l).symm
    _ = (l.reverse.takeWhile (· = '0') ++ l.reverse.dropWhile (· = '0')).reverse := by
        rw [h1]
    _ = (l.reverse.dropWhile (· = '0')).reverse ++
          (l.reverse.takeWhile (· = '0')).reverse := by rw [List.reverse_append]
    _ = strip0 l ++ (l.reverse.takeWhile (· = '0')).reverse := rfl
    _ = strip0 l ++ List.replicate (l.reverse.takeWhile (· = '0')).length '0' := by
        congr 1
        conv_lhs => rw [h2]
        rw [List.reverse_replicate]

theorem strip0_digits (B : List Nat) (hB : ∀ d ∈ B, d < 10) :
    ∃ B' k, strip0 (B.map digitChar) = B'.map digitChar ∧
      (∀ d ∈ B', d < 10) ∧
      valBE B = valBE B' * 10 ^ k ∧
      B.length = B'.length + k := by
  obtain ⟨k, hk⟩ := strip0_spec (B.map digitChar)
  have hlen : B.length = (strip0 (B.map digitChar)).length + k := by
    have := congrArg List.length hk
    simpa using this
  have hkB : k ≤ B.length := by omega
  refine ⟨B.take (B.length - k), k, ?_, ?_, ?_, ?_⟩
  · have htk : strip0 (B.map digitChar) =
        (B.map digitChar).take (B.length - k) := by
      have h2 : (strip0 (B.map digitChar) ++ List.replicate k '0').take
          (B.length - k) = strip0 (B.map digitChar) := by
        rw [List.take_append_of_le_length (by omega)]
        exact List.take_of_length_le (by omega)
      rw [← h2, ← hk]
    rw [htk, List.map_take]
  · intro d hd
    exact hB d (List.take_subset _ _ hd)
  · have h3 : (B.map digitChar).drop (B.length - k) = List.replicate k '0' := by
      conv in (B.map digitChar).drop _ => rw [hk]
      rw [List.drop_append_of_le_length (by omega)]
      have h4 : (strip0 (B.map digitChar)).drop (B.length - k) = [] :=
        List.drop_eq_nil_of_le (by omega)
      rw [h4, List.nil_append]
    have hdropmap : (B.drop (B.length - k)).map digitChar =
        List.replicate k '0' := by
      rw [List.map_drop]
      exact h3
    have hz : ∀ d ∈ B.drop (B.length - k), d = 0 := by
      intro d hd
      have hc : digitChar d ∈ List.replicate k '0' := by
        rw [← hdropmap]
        exact List.mem_map_of_mem _ hd
      have hc0 : digitChar d = '0' := List.eq_of_mem_replicate hc
      exact (digitChar_eq_zero_iff d (hB d (List.drop_subset _ _ hd))).mp hc0
    have hdl : (B.drop (B.length - k)).length = k := by
      have := congrArg List.length hdropmap
      simpa using this
    calc valBE B = valBE (B.take (B.length - k) ++ B.drop (B.length - k)) := by
          rw [List.take_append_drop]
      _ = valBE (B.take (B.length - k)) * 10 ^ (B.drop (B.length - k)).length +
            valBE (B.drop (B.length - k)) := valBE_append ..
      _ = valBE (B.take (B.length - k)) * 10 ^ k := by
          rw [hdl, valBE_all_zero _ hz]
          ring
  · rw [List.length_take, Nat.min_eq_left (by omega)]
    omega

theorem scanExp_parse_neg (bk : Bool) (m : ℚ) (E : List Nat) (hE : E ≠ [])
    (hEd : ∀ d ∈ E, d < 10) (r : Str) (hr : stopsDigits r) :
    scanExp bk m ('e' :: '-' :: E.map digitChar ++ r) =
      some (m * (10 : ℚ) ^ (-(valBE E : Int)), r) := by
  have hlen : E.length ≠ 0 := fun h => hE (List.length_eq_zero.mp h)
  have h1 : scanExp bk m ('e' :: '-' :: E.map digitChar ++ r) =
      (if (scanDigits 0 0 (scanSign ('-' :: (E.map digitChar ++ r))).2).2.1 = 0
       then (if bk then some (m, 'e' :: '-' :: E.map digitChar ++ r) else none)
       else some (m * (10 : ℚ) ^
          (if (scanSign ('-' :: (E.map digitChar ++ r))).1
           then -((scanDigits 0 0 (scanSign ('-' :: (E.map digitChar ++ r))).2).1 : Int)
           else ((scanDigits 0 0 (scanSign ('-' :: (E.map digitChar ++ r))).2).1 : Int)),
         (scanDigits 0 0 (scanSign ('-' :: (E.map digitChar ++ r))).2).2.2)) := rfl
  rw [h1]
  rw [show scanSign ('-' :: (E.map digitChar ++ r)) =
    (true, E.map digitChar ++ r) from rfl]
  rw [scanDigits_render E 0 0 r hEd hr]
  simp [hlen]

theorem scanExp_parse_pos (bk : Bool) (m : ℚ) (E : List Nat) (hE : E ≠ [])
    (hEd : ∀ d ∈ E, d < 10) (r : Str) (hr : stopsDigits r) :
    scanExp bk m ('e' :: '+' :: E.map digitChar ++ r) =
      some (m * (10 : ℚ) ^ ((valBE E : Int)), r) := by
  have hlen : E.length ≠ 0 := fun h => hE (List.length_eq_zero.mp h)
  have h1 : scanExp bk m ('e' :: '+' :: E.map digitChar ++ r) =
      (if (scanDigits 0 0 (scanSign ('+' :: (E.map digitChar ++ r))).2).2.1 = 0
       then (if bk then some (m, 'e' :: '+' :: E.map digitChar ++ r) else none)
       else some (m * (10 : ℚ) ^
          (if (scanSign ('+' :: (E.map digitChar ++ r))).1
           then -((scanDigits 0 0 (scanSign ('+' :: (E.map digitChar ++ r))).2).1 : Int)
           else ((scanDigits 0 0 (scanSign ('+' :: (E.map digitChar ++ r))).2).1 : Int)),
         (scanDigits 0 0 (scanSign ('+' :: (E.map digitChar ++ r))).2).2.2)) := rfl
  rw [h1]
  rw [show scanSign ('+' :: (E.map digitChar ++ r)) =
    (false, E.map digitChar ++ r) from rfl]
  rw [scanDigits_render E 0 0 r hEd hr]
  simp [hlen]

theorem hexTail_ne (c d : Char) (rest : Str) (hd1 : d ≠ 'x') (hd2 : d ≠ 'X') :
    hexTail (c :: d :: rest) = none := by
  have hc : ¬((c = '0' && (d = 'x' || d = 'X')) = true) := by
    simp [hd1, hd2]
  unfold hexTail
  dsimp only
  rw [if_neg hc]

theorem hexTail_one (c : Char) : hexTail [c] = none := by
  unfold hexTail
  rfl

theorem digitChar_ne_xX (d : Nat) (hd : d < 10) :
    digitChar d ≠ 'x' ∧ digitChar d ≠ 'X' := by
  interval_cases d <;> exact ⟨by decide, by decide⟩

theorem scanDouble_digits (bk : Bool) (A : List Nat) (hA : A ≠ [])
    (hAd : ∀ d ∈ A, d < 10) (t : Str) (ht : stopsDigits t)
    (hdot : ∀ s4, t ≠ '.' :: s4)
    (hx : ∀ s4, t ≠ 'x' :: s4 ∧ t ≠ 'X' :: s4) :
    scanDoubleB bk (A.map digitChar ++ t) = scanExp bk ((valBE A : ℚ)) t := by
  obtain ⟨a, A', rfl⟩ : ∃ a A', A = a :: A' := by
    cases A with
    | nil => exact absurd rfl hA
    | cons a A' => exact ⟨a, A', rfl⟩
  have ha : a < 10 := hAd a (by simp)
  have hsp := (digitChar_not_special a ha).2.2.2
  have h0 : ((a :: A').map digitChar ++ t).dropWhile isSpaceC =
      digitChar a :: (A'.map digitChar ++ t) := by
    simp [List.dropWhile_cons, hsp.2.2]
  have hhex : hexTail (digitChar a :: (A'.map digitChar ++ t)) = none := by
    cases A' with
    | nil =>
      cases t with
      | nil => exact hexTail_one _
      | cons c t' =>
        exact hexTail_ne _ c _ (fun h => (hx t').1 (by rw [h]))
          (fun h => (hx t').2 (by rw [h]))
    | cons b A'' =>
      exact hexTail_ne _ _ _ (digitChar_ne_xX b (hAd b (by simp))).1
        (digitChar_ne_xX b (hAd b (by simp))).2
  have hdr := scanDigits_render (a :: A') 0 0 t hAd ht
  simp only [List.map_cons, List.cons_append, Nat.zero_mul, Nat.zero_add] at hdr
  have hlen : ¬(a :: A').length = 0 := by simp
  unfold scanDoubleB
  dsimp only
  rw [h0, scanSign_other (digitChar a) (A'.map digitChar ++ t) hsp.1 hsp.2.1]
  dsimp only
  rw [hhex]
  dsimp only
  rw [hdr]
  dsimp only
  cases t with
  | nil =>
    dsimp only
    rw [if_neg hlen]
    cases hE : scanExp bk ((valBE (a :: A') : ℚ)) ([] : Str) with
    | none => simp [hE]
    | some e => simp [hE]
  | cons c t' =>
    have hcdot : c ≠ '.' := fun h => hdot t' (by rw [h])
    split
    · next s4 heq =>
      rw [List.cons.injEq] at heq
      exact absurd heq.1 hcdot
    · rw [if_neg hlen]
      cases hE : scanExp bk ((valBE (a :: A') : ℚ)) (c :: t') with
      | none => simp [hE]
      | some e => simp [hE]

theorem scanDouble_digits_frac (bk : Bool) (A B : List Nat) (hA : A ≠ [])
    (hB : B ≠ []) (hAd : ∀ d ∈ A, d < 10) (hBd : ∀ d ∈ B, d < 10)
    (t : Str) (ht : stopsDigits t) :
    scanDoubleB bk (A.map digitChar ++ ('.' :: (B.map digitChar ++ t))) =
      scanExp bk ((valBE A : ℚ) + (valBE B : ℚ) / (10 : ℚ) ^ B.length) t := by
  obtain ⟨a, A', rfl⟩ : ∃ a A', A = a :: A' := by
    cases A with
    | nil => exact absurd rfl hA
    | cons a A' => exact ⟨a, A', rfl⟩
  have ha : a < 10 := hAd a (by simp)
  have hsp := (digitChar_not_special a ha).2.2.2
  have hBlen : B.length ≠ 0 := fun h => hB (List.length_eq_zero.mp h)
  have hhex : hexTail (digitChar a ::
      (A'.map digitChar ++ ('.' :: (B.map digitChar ++ t)))) = none := by
    cases A' with
    | nil => exact hexTail_ne _ '.' _ (by decide) (by decide)
    | cons b A'' =>
      exact hexTail_ne _ _ _ (digitChar_ne_xX b (hAd b (by simp))).1
        (digitChar_ne_xX b (hAd b (by simp))).2
  have hdrA := scanDigits_render (a :: A') 0 0 ('.' :: (B.map digitChar ++ t)) hAd
    (Or.inr ⟨'.', B.map digitChar ++ t, rfl, by decide⟩)
  simp only [List.map_cons, List.cons_append, Nat.zero_mul, Nat.zero_add] at hdrA
  have hdrB := scanDigits_render B 0 0 t hBd ht
  simp only [Nat.zero_mul, Nat.zero_add] at hdrB
  have hlen : ¬((a :: A').length = 0 ∧ B.length = 0) := fun h => hBlen h.2
  simp only [List.map_cons, List.cons_append]
  unfold scanDoubleB
  dsimp only
  rw [show (digitChar a ::
      (A'.map digitChar ++ ('.' :: (B.map digitChar ++ t)))).dropWhile isSpaceC =
      digitChar a :: (A'.map digitChar ++ ('.' :: (B.map digitChar ++ t))) by
      simp [List.dropWhile_cons, hsp.2.2],
    scanSign_other (digitChar a) (A'.map digitChar ++ ('.' :: (B.map digitChar ++ t)))
      hsp.1 hsp.2.1]
  dsimp only
  rw [hhex]
  dsimp only
  rw [hdrA]
  split
  · next s4 heq =>
    rw [List.cons.injEq] at heq
    obtain ⟨-, hs4⟩ := heq
    subst hs4
    rw [hdrB]
    dsimp only
    rw [if_neg (by simp [hBlen])]
    cases hE : scanExp bk ((valBE (a :: A') : ℚ) +
        (valBE B : ℚ) / (10 : ℚ) ^ B.length) t with
    | none => simp [hE]
    | some e => simp [hE]
  · next x hcon =>
    exact (hcon (B.map digitChar ++ t) rfl).elim

theorem decExp_bounds (p : ℚ) (hp : 0 < p) :
    (10 : ℚ) ^ decExp p ≤ p ∧ p < (10 : ℚ) ^ (decExp p + 1) := by
  have hnum : 0 < p.num := Rat.num_pos.mpr hp
  have ha0 : 0 < p.num.toNat := by omega
  have hb0 : 0 < p.den := p.pos
  have hpab : p = ((p.num.toNat : ℚ)) / ((p.den : ℚ)) := by
    rw [show ((p.num.toNat : ℚ)) = ((p.num : ℚ)) by
      rw [← Int.cast_natCast]
      congr 1
      omega]
    exact (Rat.num_div_den p).symm
  obtain ⟨hA1, hA2⟩ := toDigs_len_bounds p.num.toNat (by omega)
  obtain ⟨hB1, hB2⟩ := toDigs_len_bounds p.den (by omega)
  have hla1 : 1 ≤ (toDigs p.num.toNat).length := by
    by_contra h
    have h0 : (toDigs p.num.toNat).length = 0 := by omega
    rw [h0] at hA2
    omega
  have hlb1 : 1 ≤ (toDigs p.den).length := by
    by_contra h
    have h0 : (toDigs p.den).length = 0 := by omega
    rw [h0] at hB2
    omega
  set a := p.num.toNat with ha
  set b := p.den with hb
  set la := (toDigs a).length with hla
  set lb := (toDigs b).length with hlb
  have hb0Q : (0 : ℚ) < (b : ℚ) := by exact_mod_cast hb0
  have hpowQ : ∀ k : Nat, (0 : ℚ) < (10 : ℚ) ^ (k : ℤ) := fun k => by positivity
  have hzpow : ∀ k : Nat, ((10 : ℚ) ^ (k : ℤ)) = ((10 ^ k : Nat) : ℚ) := fun k => by
    rw [zpow_natCast]
    push_cast
    ring
  unfold decExp
  dsimp only
  rw [← ha, ← hb, ← hla, ← hlb]
  by_cases hcond : b * 10 ^ la ≤ a * 10 ^ lb
  · rw [if_pos hcond]
    have hsub : ((la : ℤ) - lb) = (la : ℤ) - (lb : ℤ) := rfl
    have hz1 : (10 : ℚ) ^ ((la : ℤ) - lb) =
        ((10 ^ la : Nat) : ℚ) / ((10 ^ lb : Nat) : ℚ) := by
      rw [zpow_sub₀ (by norm_num), hzpow, hzpow]
    have hz2 : (10 : ℚ) ^ ((la : ℤ) - lb + 1) =
        ((10 ^ (la + 1) : Nat) : ℚ) / ((10 ^ lb : Nat) : ℚ) := by
      rw [show ((la : ℤ) - lb + 1) = ((la + 1 : Nat) : ℤ) - (lb : ℤ) by push_cast; ring,
        zpow_sub₀ (by norm_num), hzpow, hzpow]
    constructor
    · rw [hz1, hpab]
      rw [div_le_div_iff (by positivity) hb0Q]
      exact_mod_cast (by calc 10 ^ la * b = b * 10 ^ la := by ring
        _ ≤ a * 10 ^ lb := hcond)
    · rw [hz2, hpab]
      rw [div_lt_div_iff hb0Q (by positivity)]
      have hnat : a * 10 ^ lb < 10 ^ (la + 1) * b := by
        calc a * 10 ^ lb < 10 ^ la * 10 ^ lb :=
              (Nat.mul_lt_mul_right (pow_pos (by omega : (0 : ℕ) < 10) lb)).mpr hA2
          _ = 10 ^ (la + lb) := by rw [← pow_add]
          _ = 10 ^ (la + 1) * 10 ^ (lb - 1) := by
              rw [← pow_add]
              congr 1
              omega
          _ ≤ 10 ^ (la + 1) * b := Nat.mul_le_mul_left _ hB1
      exact_mod_cast hnat
  · rw [if_neg hcond]
    push_neg at hcond
    have hz1 : (10 : ℚ) ^ ((la : ℤ) - lb - 1) =
        ((10 ^ la : Nat) : ℚ) / ((10 ^ (lb + 1) : Nat) : ℚ) := by
      rw [show ((la : ℤ) - lb - 1) = (la : ℤ) - ((lb + 1 : Nat) : ℤ) by push_cast; ring,
        zpow_sub₀ (by norm_num), hzpow, hzpow]
    have hz2 : (10 : ℚ) ^ ((la : ℤ) - lb - 1 + 1) =
        ((10 ^ la : Nat) : ℚ) / ((10 ^ lb : Nat) : ℚ) := by
      rw [show ((la : ℤ) - lb - 1 + 1) = (la : ℤ) - (lb : ℤ) by ring,
        zpow_sub₀ (by norm_num), hzpow, hzpow]
    constructor
    · rw [hz1, hpab]
      rw [div_le_div_iff (by positivity) hb0Q]
      have hnat : 10 ^ la * b ≤ a * 10 ^ (lb + 1) := by
        calc 10 ^ la * b ≤ 10 ^ la * 10 ^ lb := Nat.mul_le_mul_left _ (le_of_lt hB2)
          _ = 10 ^ (la + lb) := by rw [← pow_add]
          _ = 10 ^ (la - 1) * 10 ^ (lb + 1) := by
              rw [← pow_add]
              congr 1
              omega
          _ ≤ a * 10 ^ (lb + 1) := Nat.mul_le_mul_right _ hA1
      exact_mod_cast hnat
    · rw [hz2, hpab]
      rw [div_lt_div_iff hb0Q (by positivity)]
      exact_mod_cast (by calc a * 10 ^ lb < b * 10 ^ la := hcond
        _ = 10 ^ la * b := by ring)

theorem floor_mant_bounds (p : ℚ) (hp : 0 < p) :
    (10 ^ 9 : ℤ) ≤ ⌊p * (10 : ℚ) ^ (9 - decExp p) + 1 / 2⌋ ∧
      ⌊p * (10 : ℚ) ^ (9 - decExp p) + 1 / 2⌋ ≤ 10 ^ 10 ∧
      |(⌊p * (10 : ℚ) ^ (9 - decExp p) + 1 / 2⌋ : ℚ) -
        p * (10 : ℚ) ^ (9 - decExp p)| ≤ 1 / 2 := by
  obtain ⟨hlo, hhi⟩ := decExp_bounds p hp
  set e := decExp p with he
  set x : ℚ := p * (10 : ℚ) ^ (9 - e) with hx
  have hpow_pos : (0 : ℚ) < (10 : ℚ) ^ (9 - e) := by positivity
  have hx_lo : (10 : ℚ) ^ (9 : ℤ) ≤ x := by
    have h1 : (10 : ℚ) ^ (9 : ℤ) = (10 : ℚ) ^ e * (10 : ℚ) ^ (9 - e) := by
      rw [← zpow_add₀ (by norm_num : (10 : ℚ) ≠ 0)]
      congr 1
      ring
    rw [h1, hx]
    exact mul_le_mul_of_nonneg_right hlo (le_of_lt hpow_pos)
  have hx_hi : x < (10 : ℚ) ^ (10 : ℤ) := by
    have h1 : (10 : ℚ) ^ (10 : ℤ) = (10 : ℚ) ^ (e + 1) * (10 : ℚ) ^ (9 - e) := by
      rw [← zpow_add₀ (by norm_num : (10 : ℚ) ≠ 0)]
      congr 1
      ring
    rw [h1, hx]
    exact mul_lt_mul_of_pos_right hhi hpow_pos
  refine ⟨?_, ?_, ?_⟩
  · rw [Int.le_floor]
    push_cast
    calc ((10 : ℚ) ^ (9 : ℕ)) = (10 : ℚ) ^ (9 : ℤ) := by norm_num
      _ ≤ x := hx_lo
      _ ≤ x + 1 / 2 := by linarith
  · have h2 : (⌊x + 1 / 2⌋ : ℚ) ≤ x + 1 / 2 := Int.floor_le _
    have h3 : (⌊x + 1 / 2⌋ : ℚ) < (10 : ℚ) ^ (10 : ℤ) + 1 / 2 := by linarith
    have h4 : ((10 : ℚ) ^ (10 : ℤ)) = ((10 ^ 10 : ℤ) : ℚ) := by norm_num
    rw [h4] at h3
    have h5 : (⌊x + 1 / 2⌋ : ℚ) < ((10 ^ 10 : ℤ) : ℚ) + 1 := by linarith
    have h6 : ⌊x + 1 / 2⌋ < 10 ^ 10 + 1 := by exact_mod_cast h5
    omega
  · rw [abs_le]
    have h2 : (⌊x + 1 / 2⌋ : ℚ) ≤ x + 1 / 2 := Int.floor_le _
    have h3 : x + 1 / 2 < (⌊x + 1 / 2⌋ : ℚ) + 1 := Int.lt_floor_add_one _
    constructor <;> linarith

theorem mantE_parts (p : ℚ) (hp : 0 < p) :
    10 ^ 9 ≤ (mantE p).1 ∧ (mantE p).1 < 10 ^ 10 ∧
      ((mantE p).1 : ℚ) * (10 : ℚ) ^ ((mantE p).2 - 9) =
        ((⌊p * (10 : ℚ) ^ (9 - decExp p) + 1 / 2⌋ : ℤ) : ℚ) *
          (10 : ℚ) ^ (decExp p - 9) := by
  obtain ⟨hm1, hm2, _⟩ := floor_mant_bounds p hp
  set e := decExp p with he
  set m0 : ℤ := ⌊p * (10 : ℚ) ^ (9 - e) + 1 / 2⌋ with hm0
  have hm0nn : 0 ≤ m0 := le_trans (by norm_num) hm1
  have htn : ((m0.toNat : ℤ)) = m0 := Int.toNat_of_nonneg hm0nn
  unfold mantE
  dsimp only
  rw [← he, ← hm0]
  by_cases hover : m0.toNat = 10 ^ 10
  · rw [if_pos hover]
    refine ⟨by norm_num, by norm_num, ?_⟩
    have hm0v : m0 = 10 ^ 10 := by omega
    rw [hm0v]
    push_cast
    rw [show (e + 1 - 9 : ℤ) = (e - 9) + 1 by ring,
      zpow_add₀ (by norm_num : (10 : ℚ) ≠ 0)]
    norm_num
    ring
  · rw [if_neg hover]
    refine ⟨by omega, by omega, ?_⟩
    have : ((m0.toNat : ℚ)) = ((m0 : ℤ) : ℚ) := by exact_mod_cast congrArg Int.cast htn
    rw [this]

theorem g10_eq_mantE (p : ℚ) (hp : 0 < p) :
    g10 p = ((mantE p).1 : ℚ) * (10 : ℚ) ^ ((mantE p).2 - 9) := by
  unfold g10
  rw [if_neg (ne_of_gt hp), if_neg (not_lt.mpr (le_of_lt hp))]

theorem g10_err (p : ℚ) (hp : 0 < p) : |g10 p - p| ≤ p / 10 ^ 9 := by
  obtain ⟨hlo, hhi⟩ := decExp_bounds p hp
  obtain ⟨_, _, hval⟩ := mantE_parts p hp
  obtain ⟨_, _, herr⟩ := floor_mant_bounds p hp
  rw [g10_eq_mantE p hp, hval]
  set e := decExp p with he
  set x : ℚ := p * (10 : ℚ) ^ (9 - e) with hx
  set m0 : ℤ := ⌊x + 1 / 2⌋ with hm0
  have hpow_pos : (0 : ℚ) < (10 : ℚ) ^ ((e : ℤ) - 9) := by positivity
  have hsplit : p = x * (10 : ℚ) ^ ((e : ℤ) - 9) := by
    rw [hx, mul_assoc, ← zpow_add₀ (by norm_num : (10 : ℚ) ≠ 0)]
    norm_num
  have habs : |(m0 : ℚ) * (10 : ℚ) ^ ((e : ℤ) - 9) - p| =
      |(m0 : ℚ) - x| * (10 : ℚ) ^ ((e : ℤ) - 9) := by
    rw [show (m0 : ℚ) * (10 : ℚ) ^ ((e : ℤ) - 9) - p =
      ((m0 : ℚ) - x) * (10 : ℚ) ^ ((e : ℤ) - 9) by
        rw [sub_mul, ← hsplit]]
    rw [abs_mul, abs_of_pos hpow_pos]
  rw [habs]
  have hb1 : |(m0 : ℚ) - x| * (10 : ℚ) ^ ((e : ℤ) - 9) ≤
      (1 / 2) * (10 : ℚ) ^ ((e : ℤ) - 9) :=
    mul_le_mul_of_nonneg_right herr (le_of_lt hpow_pos)
  have hb2 : (10 : ℚ) ^ ((e : ℤ) - 9) ≤ p * (10 : ℚ) ^ (-9 : ℤ) := by
    rw [show ((e : ℤ) - 9) = e + (-9 : ℤ) by ring,
      zpow_add₀ (by norm_num : (10 : ℚ) ≠ 0)]
    exact mul_le_mul_of_nonneg_right hlo (by positivity)
  have hfin : (1 / 2) * (p * (10 : ℚ) ^ (-9 : ℤ)) ≤ p / 10 ^ 9 := by
    rw [zpow_neg, show ((9 : ℤ) : ℤ) = (9 : ℕ) by rfl]
    rw [zpow_natCast]
    rw [div_eq_mul_inv]
    nlinarith [inv_pos.mpr (show (0 : ℚ) < 10 ^ (9 : ℕ) by positivity), hp]
  calc |(m0 : ℚ) - x| * (10 : ℚ) ^ ((e : ℤ) - 9) ≤
        (1 / 2) * (10 : ℚ) ^ ((e : ℤ) - 9) := hb1
    _ ≤ (1 / 2) * (p * (10 : ℚ) ^ (-9 : ℤ)) := by
        have := mul_le_mul_of_nonneg_left hb2 (by norm_num : (0 : ℚ) ≤ 1 / 2)
        linarith
    _ ≤ p / 10 ^ 9 := hfin

theorem valBE_single (d : Nat) : valBE [d] = d := by
  show 10 * 0 + d = d
  ring

theorem valBE_zero_cons (l : List Nat) : valBE (0 :: l) = valBE l := rfl

theorem valBE_take_drop (l : List Nat) (j : Nat) :
    valBE l = valBE (l.take j) * 10 ^ (l.drop j).length + valBE (l.drop j) := by
  conv_lhs => rw [← List.take_append_drop j l]
  exact valBE_append ..

theorem value_eq_shift (NA NB b kk m : Nat) (X E : Int)
    (hm : m = NA * 10 ^ (b + kk) + NB * 10 ^ kk)
    (hexp : X - 9 = E - ((b + kk : Nat) : ℤ)) :
    ((NA : ℚ) + (NB : ℚ) / (10 : ℚ) ^ b) * (10 : ℚ) ^ E =
      (m : ℚ) * (10 : ℚ) ^ (X - 9) := by
  have h10 : (10 : ℚ) ≠ 0 := by norm_num
  have hstep : ((NA : ℚ) + (NB : ℚ) / (10 : ℚ) ^ b) =
      (m : ℚ) / (10 : ℚ) ^ (b + kk) := by
    have hmQ : (m : ℚ) = (NA : ℚ) * 10 ^ (b + kk) + (NB : ℚ) * 10 ^ kk := by
      rw [hm]
      push_cast
      ring
    rw [hmQ, pow_add]
    field_simp
    ring
  rw [hstep, hexp, zpow_sub₀ h10, zpow_natCast]
  field_simp

theorem expChars_eq (x : Int) :
    ∃ E : List Nat, E ≠ [] ∧ (∀ d ∈ E, d < 10) ∧ (valBE E : Int) = x.natAbs ∧
      expChars x = (if x < 0 then '-' else '+') :: E.map digitChar := by
  unfold expChars
  dsimp only
  by_cases h0 : ((toDigs x.natAbs).map digitChar).length = 0
  · refine ⟨[0, 0], by simp, by simp, ?_, ?_⟩
    · have hnil : toDigs x.natAbs = [] := by
        rw [List.length_map] at h0
        exact List.length_eq_zero.mp h0
      have hv := valBE_toDigs x.natAbs
      rw [hnil] at hv
      have hv0 : valBE ([] : List Nat) = 0 := rfl
      rw [hv0] at hv
      have h2 : valBE ([0, 0] : List Nat) = 0 := by decide
      rw [h2]
      omega
    · rw [if_pos h0]
      rfl
  · by_cases h1 : ((toDigs x.natAbs).map digitChar).length = 1
    · refine ⟨0 :: toDigs x.natAbs, by simp, ?_, ?_, ?_⟩
      · intro d hd
        rcases List.mem_cons.mp hd with h | h
        · omega
        · exact toDigs_lt10 x.natAbs d h
      · rw [valBE_zero_cons, valBE_toDigs]
      · rw [if_neg h0, if_pos h1]
        rfl
    · refine ⟨toDigs x.natAbs, ?_, toDigs_lt10 x.natAbs, ?_, ?_⟩
      · intro hnil
        rw [List.length_map, hnil] at h0
        exact h0 rfl
      · rw [valBE_toDigs]
      · rw [if_neg h0, if_neg h1]

theorem renderG_sci (bk : Bool) (m : Nat) (x : Int) (hlo : 10 ^ 9 ≤ m)
    (hhi : m < 10 ^ 10) (hsci : x < -4 ∨ 10 ≤ x) (r : Str)
    (hr : r = [] ∨ ∃ t, r = ' ' :: t) :
    scanDoubleB bk (renderG m x ++ r) = some ((m : ℚ) * (10 : ℚ) ^ (x - 9), r) := by
  have hlen : (toDigs m).length = 10 := toDigs_len_eq m 9 hlo hhi
  have hd10 := toDigs_lt10 m
  have hval := valBE_toDigs m
  have hstopr : stopsDigits r := by
    rcases hr with h | ⟨t, h⟩
    · exact Or.inl h
    · exact Or.inr ⟨' ', t, h, by decide⟩
  obtain ⟨d0, Dr, hD⟩ : ∃ d0 Dr, toDigs m = d0 :: Dr := by
    cases hDD : toDigs m with
    | nil => rw [hDD] at hlen; simp at hlen
    | cons a b => exact ⟨a, b, rfl⟩
  have hd0 : d0 < 10 := hd10 d0 (by rw [hD]; simp)
  have hDr9 : Dr.length = 9 := by
    have := hlen
    rw [hD] at this
    simpa using this
  have hDrd : ∀ d ∈ Dr, d < 10 := fun d hd =>
    hd10 d (by rw [hD]; exact List.mem_cons_of_mem _ hd)
  obtain ⟨B', k, hfrac, hB'd, hBval, hBlen⟩ := strip0_digits Dr hDrd
  have hmEq : m = d0 * 10 ^ (B'.length + k) + valBE B' * 10 ^ k := by
    have h1 : valBE (toDigs m) = d0 * 10 ^ Dr.length + valBE Dr := by
      rw [hD]
      show Dr.foldl _ (10 * 0 + d0) = _
      rw [valBE_foldl]
      ring
    rw [hval, hBval] at h1
    rw [← hBlen]
    exact h1
  have h9 : B'.length + k = 9 := by omega
  obtain ⟨E, hEne, hEd, hEval, hEeq⟩ := expChars_eq x
  unfold renderG
  dsimp only
  rw [if_pos hsci, hD, hEeq]
  by_cases hB'nil : B' = []
  · subst hB'nil
    have hfrac0 : strip0 ((d0 :: Dr).map digitChar |>.drop 1) = [] := by
      simp only [List.map_cons, List.drop_succ_cons, List.drop_zero]
      rw [hfrac]
      rfl
    rw [hfrac0, if_pos rfl]
    by_cases hxneg : x < 0
    · rw [if_pos hxneg]
      have hmain := scanDouble_digits bk [d0] (by simp)
        (by intro d hd; simp at hd; omega)
        ('e' :: '-' :: E.map digitChar ++ r)
        (Or.inr ⟨'e', '-' :: E.map digitChar ++ r, by simp, by decide⟩)
        (fun s4 => by simp)
        (fun s4 => ⟨by simp, by simp⟩)
      have hexp := scanExp_parse_neg bk ((valBE [d0] : ℚ)) E hEne hEd r hstopr
      simp only [List.map_cons, List.map_nil, List.take_succ_cons, List.take_zero,
        List.append_assoc, List.cons_append, List.singleton_append,
        List.nil_append, List.append_nil] at hmain hexp ⊢
      rw [hmain, hexp]
      congr 1
      rw [Prod.mk.injEq]
      refine ⟨?_, rfl⟩
      rw [valBE_single]
      have hEx : -((valBE E : Int)) = x := by omega
      rw [hEx]
      have := value_eq_shift d0 0 0 9 m x x
        (by
          have hk : k = 9 := by simpa using h9
          have h0 : valBE ([] : List Nat) = 0 := rfl
          rw [hmEq, hk, h0]
          simp)
        (by push_cast; ring)
      calc (d0 : ℚ) * (10 : ℚ) ^ x =
            ((d0 : ℚ) + (0 : ℚ) / (10 : ℚ) ^ (0 : ℕ)) * (10 : ℚ) ^ x := by
              norm_num
        _ = (m : ℚ) * (10 : ℚ) ^ (x - 9) := by
              have h0 : ((0 : Nat) : ℚ) = (0 : ℚ) := by norm_num
              rw [← h0]
              exact this
    · rw [if_neg hxneg]
      have hmain := scanDouble_digits bk [d0] (by simp)
        (by intro d hd; simp at hd; omega)
        ('e' :: '+' :: E.map digitChar ++ r)
        (Or.inr ⟨'e', '+' :: E.map digitChar ++ r, by simp, by decide⟩)
        (fun s4 => by simp)
        (fun s4 => ⟨by simp, by simp⟩)
      have hexp := scanExp_parse_pos bk ((valBE [d0] : ℚ)) E hEne hEd r hstopr
      simp only [List.map_cons, List.map_nil, List.take_succ_cons, List.take_zero,
        List.append_assoc, List.cons_append, List.singleton_append,
        List.nil_append, List.append_nil] at hmain hexp ⊢
      rw [hmain, hexp]
      congr 1
      rw [Prod.mk.injEq]
      refine ⟨?_, rfl⟩
      rw [valBE_single]
      have hEx : ((valBE E : Int)) = x := by omega
      rw [hEx]
      have := value_eq_shift d0 0 0 9 m x x
        (by
          have hk : k = 9 := by simpa using h9
          have h0 : valBE ([] : List Nat) = 0 := rfl
          rw [hmEq, hk, h0]
          simp)
        (by push_cast; ring)
      calc (d0 : ℚ) * (10 : ℚ) ^ x =
            ((d0 : ℚ) + (0 : ℚ) / (10 : ℚ) ^ (0 : ℕ)) * (10 : ℚ) ^ x := by
              norm_num
        _ = (m : ℚ) * (10 : ℚ) ^ (x - 9) := by
              have h0 : ((0 : Nat) : ℚ) = (0 : ℚ) := by norm_num
              rw [← h0]
              exact this
  · have hfracB : strip0 ((d0 :: Dr).map digitChar |>.drop 1) = B'.map digitChar := by
      simp only [List.map_cons, List.drop_succ_cons, List.drop_zero]
      exact hfrac
    rw [hfracB, if_neg (by simpa using hB'nil)]
    by_cases hxneg : x < 0
    · rw [if_pos hxneg]
      have hmain := scanDouble_digits_frac bk [d0] B' (by simp) hB'nil
        (by intro d hd; simp at hd; omega) hB'd
        ('e' :: '-' :: E.map digitChar ++ r)
        (Or.inr ⟨'e', '-' :: E.map digitChar ++ r, by simp, by decide⟩)
      have hexp := scanExp_parse_neg bk ((valBE [d0] : ℚ) + (valBE B' : ℚ) /
        (10 : ℚ) ^ B'.length) E hEne hEd r hstopr
      simp only [List.map_cons, List.map_nil, List.take_succ_cons, List.take_zero,
        List.append_assoc, List.cons_append, List.singleton_append,
        List.nil_append, List.append_nil] at hmain hexp ⊢
      rw [hmain, hexp]
      congr 1
      rw [Prod.mk.injEq]
      refine ⟨?_, rfl⟩
      rw [valBE_single]
      have hEx : -((valBE E : Int)) = x := by omega
      rw [hEx]
      exact value_eq_shift d0 (valBE B') B'.length k m x x hmEq
        (by rw [h9]; push_cast; ring)
    · rw [if_neg hxneg]
      have hmain := scanDouble_digits_frac bk [d0] B' (by simp) hB'nil
        (by intro d hd; simp at hd; omega) hB'd
        ('e' :: '+' :: E.map digitChar ++ r)
        (Or.inr ⟨'e', '+' :: E.map digitChar ++ r, by simp, by decide⟩)
      have hexp := scanExp_parse_pos bk ((valBE [d0] : ℚ) + (valBE B' : ℚ) /
        (10 : ℚ) ^ B'.length) E hEne hEd r hstopr
      simp only [List.map_cons, List.map_nil, List.take_succ_cons, List.take_zero,
        List.append_assoc, List.cons_append, List.singleton_append,
        List.nil_append, List.append_nil] at hmain hexp ⊢
      rw [hmain, hexp]
      congr 1
      rw [Prod.mk.injEq]
      refine ⟨?_, rfl⟩
      rw [valBE_single]
      have hEx : ((valBE E : Int)) = x := by omega
      rw [hEx]
      exact value_eq_shift d0 (valBE B') B'.length k m x x hmEq
        (by rw [h9]; push_cast; ring)

theorem stops_of_r (r : Str) (hr : r = [] ∨ ∃ t, r = ' ' :: t) :
    stopsDigits r ∧ (∀ s4, r ≠ '.' :: s4) ∧
      (r = [] ∨ ∃ c t, r = c :: t ∧ c ≠ 'e' ∧ c ≠ 'E') ∧
      (∀ s4, r ≠ 'x' :: s4 ∧ r ≠ 'X' :: s4) := by
  rcases hr with h | ⟨t, h⟩
  · exact ⟨Or.inl h, fun s4 => by rw [h]; simp, Or.inl h,
      fun s4 => ⟨by rw [h]; simp, by rw [h]; simp⟩⟩
  · refine ⟨Or.inr ⟨' ', t, h, by decide⟩, fun s4 => ?_,
      Or.inr ⟨' ', t, h, by decide, by decide⟩,
      fun s4 => ⟨by rw [h]; simp, by rw [h]; simp⟩⟩
    rw [h]
    intro hc
    rw [List.cons.injEq] at hc
    exact absurd hc.1 (by decide)

theorem renderG_fix_nonneg (bk : Bool) (m : Nat) (x : Int) (hlo : 10 ^ 9 ≤ m)
    (hhi : m < 10 ^ 10) (hnsci : ¬(x < -4 ∨ 10 ≤ x)) (hx0 : 0 ≤ x)
    (r : Str) (hr : r = [] ∨ ∃ t, r = ' ' :: t) :
    scanDoubleB bk (renderG m x ++ r) = some ((m : ℚ) * (10 : ℚ) ^ (x - 9), r) := by
  push_neg at hnsci
  have hx9 : x ≤ 9 := by omega
  have hj10 : x.toNat + 1 ≤ 10 := by omega
  have hlen : (toDigs m).length = 10 := toDigs_len_eq m 9 hlo hhi
  have hd10 := toDigs_lt10 m
  have hval := valBE_toDigs m
  obtain ⟨hstopr, hrdot, hrE, hrxX⟩ := stops_of_r r hr
  set j := x.toNat + 1 with hj
  have htkne : (toDigs m).take j ≠ [] := by
    intro h
    rcases List.take_eq_nil_iff.mp h with h1 | h1
    · omega
    · rw [h1] at hlen
      simp at hlen
  have htkd : ∀ d ∈ (toDigs m).take j, d < 10 :=
    fun d hd => hd10 d (List.take_subset _ _ hd)
  have hdrd : ∀ d ∈ (toDigs m).drop j, d < 10 :=
    fun d hd => hd10 d (List.drop_subset _ _ hd)
  obtain ⟨B', k, hfrac, hB'd, hBval, hBlen⟩ := strip0_digits ((toDigs m).drop j) hdrd
  have hdlen : ((toDigs m).drop j).length = 10 - j := by
    rw [List.length_drop, hlen]
  have hmEq : m = valBE ((toDigs m).take j) * 10 ^ (B'.length + k) +
      valBE B' * 10 ^ k := by
    have h1 := valBE_take_drop (toDigs m) j
    rw [hval, hBval, hBlen] at h1
    exact h1
  have hsum : B'.length + k = 10 - j := by omega
  unfold renderG
  dsimp only
  rw [if_neg (by push_neg; exact hnsci), if_pos hx0, ← hj]
  rw [← List.map_take, ← List.map_drop, hfrac]
  by_cases hB'nil : B' = []
  · subst hB'nil
    have hk : k = 10 - j := by simpa using hsum
    rw [show (List.map digitChar [] : Str) = [] from rfl, if_pos rfl]
    have hmain := scanDouble_digits bk ((toDigs m).take j) htkne htkd r hstopr
      hrdot hrxX
    simp only [List.append_nil] at hmain ⊢
    rw [hmain, scanExp_other bk _ r hrE]
    congr 1
    rw [Prod.mk.injEq]
    refine ⟨?_, rfl⟩
    have hv := value_eq_shift (valBE ((toDigs m).take j)) 0 0 k m x 0
      (by exact hmEq)
      (by push_cast; omega)
    calc (valBE ((toDigs m).take j) : ℚ) =
          ((valBE ((toDigs m).take j) : ℚ) + ((0 : Nat) : ℚ) / (10 : ℚ) ^ (0 : ℕ)) *
            (10 : ℚ) ^ (0 : ℤ) := by norm_num
      _ = (m : ℚ) * (10 : ℚ) ^ (x - 9) := hv
  · rw [if_neg (by simpa using hB'nil)]
    have hmain := scanDouble_digits_frac bk ((toDigs m).take j) B' htkne hB'nil
      htkd hB'd r hstopr
    simp only [List.append_assoc, List.cons_append, List.nil_append] at hmain ⊢
    rw [hmain, scanExp_other bk _ r hrE]
    congr 1
    rw [Prod.mk.injEq]
    refine ⟨?_, rfl⟩
    have hv := value_eq_shift (valBE ((toDigs m).take j)) (valBE B') B'.length k
      m x 0 hmEq (by push_cast; omega)
    calc (valBE ((toDigs m).take j) : ℚ) + (valBE B' : ℚ) / (10 : ℚ) ^ B'.length =
          ((valBE ((toDigs m).take j) : ℚ) + (valBE B' : ℚ) / (10 : ℚ) ^ B'.length) *
            (10 : ℚ) ^ (0 : ℤ) := by norm_num
      _ = (m : ℚ) * (10 : ℚ) ^ (x - 9) := hv

theorem renderG_fix_neg (bk : Bool) (m : Nat) (x : Int) (hlo : 10 ^ 9 ≤ m)
    (hhi : m < 10 ^ 10) (hnsci : ¬(x < -4 ∨ 10 ≤ x)) (hxneg : x < 0)
    (r : Str) (hr : r = [] ∨ ∃ t, r = ' ' :: t) :
    scanDoubleB bk (renderG m x ++ r) = some ((m : ℚ) * (10 : ℚ) ^ (x - 9), r) := by
  push_neg at hnsci
  have hx4 : -4 ≤ x := hnsci.1
  have hlen : (toDigs m).length = 10 := toDigs_len_eq m 9 hlo hhi
  have hd10 := toDigs_lt10 m
  have hval := valBE_toDigs m
  obtain ⟨hstopr, hrdot, hrE, hrxX⟩ := stops_of_r r hr
  obtain ⟨B', k, hfrac, hB'd, hBval, hBlen⟩ := strip0_digits (toDigs m) hd10
  have hmEq : m = valBE B' * 10 ^ k := by rw [← hBval, hval]
  have hB'nil : B' ≠ [] := by
    intro h
    rw [h] at hmEq
    have h0 : valBE ([] : List Nat) = 0 := rfl
    rw [h0] at hmEq
    simp at hmEq
    omega
  have hsum : B'.length + k = 10 := by omega
  set z := x.natAbs - 1 with hz
  have hBall : ∀ d ∈ List.replicate z 0 ++ B', d < 10 := by
    intro d hd
    rcases List.mem_append.mp hd with h | h
    · have := List.eq_of_mem_replicate h
      omega
    · exact hB'd d h
  have hBne : List.replicate z 0 ++ B' ≠ [] := by
    intro h
    rcases List.append_eq_nil.mp h with ⟨-, h2⟩
    exact hB'nil h2
  have hmain := scanDouble_digits_frac bk [0] (List.replicate z 0 ++ B') (by simp)
    hBne (by intro d hd; simp at hd; omega) hBall r hstopr
  have hvB : valBE (List.replicate z 0 ++ B') = valBE B' := by
    rw [valBE_append, valBE_all_zero _ (fun d hd => List.eq_of_mem_replicate hd)]
    ring
  unfold renderG
  dsimp only
  rw [if_neg (by push_neg; exact hnsci), if_neg (by omega), hfrac, ← hz]
  simp only [List.map_cons, List.map_nil, List.map_append, List.map_replicate,
    List.append_assoc, List.cons_append, List.singleton_append,
    List.nil_append] at hmain ⊢
  rw [show digitChar 0 = '0' from rfl] at hmain
  rw [hmain, scanExp_other bk _ r hrE]
  congr 1
  rw [Prod.mk.injEq]
  refine ⟨?_, rfl⟩
  rw [hvB, valBE_single]
  have hv := value_eq_shift 0 (valBE B') (List.replicate z 0 ++ B').length k m x 0
    (by
      rw [List.length_append, List.length_replicate]
      rw [hmEq]
      ring)
    (by
      rw [List.length_append, List.length_replicate]
      push_cast
      omega)
  calc ((0 : Nat) : ℚ) + (valBE B' : ℚ) /
        (10 : ℚ) ^ (List.replicate z 0 ++ B').length =
        (((0 : Nat) : ℚ) + (valBE B' : ℚ) /
          (10 : ℚ) ^ (List.replicate z 0 ++ B').length) * (10 : ℚ) ^ (0 : ℤ) := by
          norm_num
    _ = (m : ℚ) * (10 : ℚ) ^ (x - 9) := hv

theorem scanDouble_renderG (bk : Bool) (m : Nat) (x : Int) (hlo : 10 ^ 9 ≤ m)
    (hhi : m < 10 ^ 10) (r : Str) (hr : r = [] ∨ ∃ t, r = ' ' :: t) :
    scanDoubleB bk (renderG m x ++ r) = some ((m : ℚ) * (10 : ℚ) ^ (x - 9), r) := by
  by_cases hsci : x < -4 ∨ 10 ≤ x
  · exact renderG_sci bk m x hlo hhi hsci r hr
  · by_cases hx0 : 0 ≤ x
    · exact renderG_fix_nonneg bk m x hlo hhi hsci hx0 r hr
    · exact renderG_fix_neg bk m x hlo hhi hsci (by omega) r hr

theorem scanDouble_fmtG10 (bk : Bool) (p : ℚ) (hp : 0 ≤ p) (r : Str)
    (hr : r = [] ∨ ∃ t, r = ' ' :: t) :
    scanDoubleB bk (fmtG10 p ++ r) = some (g10 p, r) := by
  rcases eq_or_lt_of_le hp with heq | hpos
  · obtain ⟨hstopr, hrdot, hrE, hrxX⟩ := stops_of_r r hr
    have hmain := scanDouble_digits bk [0] (by simp)
      (by intro d hd; simp at hd; omega) r hstopr hrdot hrxX
    rw [← heq]
    rw [show fmtG10 0 = [(0 : Nat)].map digitChar from rfl]
    rw [hmain, scanExp_other bk _ r hrE]
    rw [show g10 0 = 0 from rfl, valBE_single]
    norm_num
  · unfold fmtG10
    rw [if_neg (ne_of_gt hpos), if_neg (not_lt.mpr (le_of_lt hpos))]
    obtain ⟨h1, h2, -⟩ := mantE_parts p hpos
    rw [g10_eq_mantE p hpos]
    exact scanDouble_renderG bk (mantE p).1 (mantE p).2 h1 h2 r hr

theorem g10_err_nonneg (p : ℚ) (hp : 0 ≤ p) : |g10 p - p| ≤ p / 10 ^ 9 := by
  rcases eq_or_lt_of_le hp with heq | hpos
  · rw [← heq]
    rw [show g10 0 = 0 from rfl]
    norm_num
  · exact g10_err p hpos

theorem toDigs_ne_nil (n : Nat) (hn : n ≠ 0) : toDigs n ≠ [] := by
  intro h
  have h2 := valBE_toDigs n
  rw [h] at h2
  simp [valBE] at h2
  omega

theorem scanInt_fmtInt (q : Int) (hq : 0 < q) (r : Str) (hr : stopsDigits r) :
    scanInt (' ' :: (fmtInt q ++ r)) = some (q, r) := by
  have hqn : q.toNat ≠ 0 := by omega
  have hfmt : fmtInt q = (toDigs q.toNat).map digitChar := by
    unfold fmtInt fmtNat
    rw [if_neg (by omega), if_neg hqn]
  obtain ⟨d0, Dr, hD⟩ : ∃ d0 Dr, toDigs q.toNat = d0 :: Dr := by
    cases hDD : toDigs q.toNat with
    | nil => exact absurd hDD (toDigs_ne_nil _ hqn)
    | cons a b => exact ⟨a, b, rfl⟩
  have hAd := toDigs_lt10 q.toNat
  have hd0 : d0 < 10 := hAd d0 (by rw [hD]; simp)
  have hsp := (digitChar_not_special d0 hd0).2.2.2
  have hdr := scanDigits_render (toDigs q.toNat) 0 0 r hAd hr
  rw [hD] at hdr
  simp only [List.map_cons, List.cons_append, Nat.zero_mul, Nat.zero_add] at hdr
  have hlen : ¬(d0 :: Dr).length = 0 := by simp
  rw [hfmt, hD]
  unfold scanInt
  dsimp only
  rw [show (' ' :: ((d0 :: Dr).map digitChar ++ r)).dropWhile isSpaceC =
    digitChar d0 :: (Dr.map digitChar ++ r) by
      rw [List.map_cons, List.cons_append, List.dropWhile_cons,
        if_pos (by decide), List.dropWhile_cons, if_neg (by simp [hsp.2.2])]]
  rw [scanSign_other (digitChar d0) (Dr.map digitChar ++ r) hsp.1 hsp.2.1]
  dsimp only
  rw [hdr]
  dsimp only
  rw [if_neg hlen]
  have hvq : valBE (d0 :: Dr) = q.toNat := by
    rw [← hD]
    exact valBE_toDigs q.toNat
  rw [hvq]
  have : ((q.toNat : Nat) : Int) = q := by omega
  rw [this]
  simp

theorem scanDouble_cons_space (bk : Bool) (s : Str) :
    scanDoubleB bk (' ' :: s) = scanDoubleB bk s := by
  unfold scanDoubleB
  rw [show (' ' :: s).dropWhile isSpaceC = s.dropWhile isSpaceC by
    simp [List.dropWhile_cons, isSpaceC]]

theorem parseLine_save_line (s : Stock) (hok : symbolOk s.symbol)
    (hq : 0 < s.qty) (hbp : 0 ≤ s.buy_price) (hcp : 0 ≤ s.cur_price) :
    parseLine (save_line s) =
      some ⟨s.symbol, s.qty, g10 s.buy_price, g10 s.cur_price⟩ := by
  obtain ⟨hne, hlen15, hws, hup⟩ := hok
  have hsave : save_line s = s.symbol ++ ' ' ::
      (fmtInt s.qty ++ (' ' :: (fmtG10 s.buy_price ++ (' ' :: fmtG10 s.cur_price)))) := by
    unfold save_line
    simp [List.cons_append, List.append_assoc]
  have hsym : scanSym15 (save_line s) = some (s.symbol, ' ' ::
      (fmtInt s.qty ++ (' ' :: (fmtG10 s.buy_price ++ (' ' :: fmtG10 s.cur_price))))) := by
    rw [hsave]
    obtain ⟨a, t, hat⟩ : ∃ a t, s.symbol = a :: t := by
      cases hc : s.symbol with
      | nil => exact absurd hc hne
      | cons a t => exact ⟨a, t, rfl⟩
    rw [hat]
    have hdrop : ((a :: t) ++ ' ' :: (fmtInt s.qty ++ (' ' :: (fmtG10 s.buy_price ++
        (' ' :: fmtG10 s.cur_price))))).dropWhile isSpaceC =
        (a :: t) ++ ' ' :: (fmtInt s.qty ++ (' ' :: (fmtG10 s.buy_price ++
        (' ' :: fmtG10 s.cur_price)))) := by
      simp [List.dropWhile_cons, hws a (by rw [hat]; simp)]
    have htake : ((a :: t) ++ ' ' :: (fmtInt s.qty ++ (' ' :: (fmtG10 s.buy_price ++
        (' ' :: fmtG10 s.cur_price))))).takeWhile (fun c => !isSpaceC c) = a :: t :=
      takeWhile_append_stop _ (a :: t) ' ' _
        (fun c hc => by simp [hws c (by rw [hat]; exact hc)]) (by simp [isSpaceC])
    unfold scanSym15
    dsimp only
    rw [hdrop, htake]
    have htk : (a :: t).take 15 = a :: t :=
      List.take_of_length_le (by rw [← hat]; exact hlen15)
    rw [htk]
    rw [if_neg (by simp)]
    congr 1
    rw [Prod.mk.injEq]
    refine ⟨rfl, ?_⟩
    rw [show ((a :: t) ++ ' ' :: (fmtInt s.qty ++ (' ' :: (fmtG10 s.buy_price ++
      (' ' :: fmtG10 s.cur_price))))).drop (a :: t).length = ' ' ::
      (fmtInt s.qty ++ (' ' :: (fmtG10 s.buy_price ++ (' ' :: fmtG10 s.cur_price)))) from
      List.drop_left ..]
  have hint : scanInt (' ' :: (fmtInt s.qty ++ (' ' :: (fmtG10 s.buy_price ++
      (' ' :: fmtG10 s.cur_price))))) = some (s.qty, ' ' :: (fmtG10 s.buy_price ++
      (' ' :: fmtG10 s.cur_price))) :=
    scanInt_fmtInt s.qty hq _ (Or.inr ⟨' ', _, rfl, by decide⟩)
  have hbpd : scanDoubleB false
      (' ' :: (fmtG10 s.buy_price ++ (' ' :: fmtG10 s.cur_price))) =
      some (g10 s.buy_price, ' ' :: fmtG10 s.cur_price) := by
    rw [scanDouble_cons_space]
    exact scanDouble_fmtG10 false s.buy_price hbp _
      (Or.inr ⟨fmtG10 s.cur_price, rfl⟩)
  have hcpd : scanDoubleB false (' ' :: fmtG10 s.cur_price) =
      some (g10 s.cur_price, []) := by
    rw [scanDouble_cons_space]
    have := scanDouble_fmtG10 false s.cur_price hcp [] (Or.inl rfl)
    simpa using this
  unfold parseLine
  rw [hsym]
  dsimp only
  rw [hint]
  dsimp only
  rw [hbpd]
  dsimp only
  rw [hcpd]
  dsimp only
  congr 1
  have hupok : strtoupper s.symbol = s.symbol := hup
  rw [hupok]
  have : snprintf15 s.symbol = s.symbol := List.take_of_length_le hlen15
  rw [this]

theorem filterMap_eq_map {α β : Type} (f : α → Option β) (g : α → β) :
    ∀ l : List α, (∀ a ∈ l, f a = some (g a)) → l.filterMap f = l.map g := by
  intro l
  induction l with
  | nil => intro _; rfl
  | cons a t ih =>
    intro h
    rw [List.map_cons, List.filterMap_cons_some (h a (by simp)),
      ih (fun b hb => h b (by simp [hb]))]

/-- C3: for a Ledger satisfying the full data-model invariants, Save then
Load yields a Ledger with the same symbols and quantities in the same
order, with each price replaced by its ten-significant-digit decimal
rounding (the value written by %.10g), which agrees with the original to
at least ten significant digits (relative error at most 10^-9); the
reported loaded count equals the Ledger size. -/
theorem C3_save_load_roundtrip (st : List Stock) (hM : ModelInv st) :
    load_file st (some (save_file st)) =
      (some st.length,
        st.map (fun s => ⟨s.symbol, s.qty, g10 s.buy_price, g10 s.cur_price⟩)) ∧
      ∀ s ∈ st, |g10 s.buy_price - s.buy_price| ≤ s.buy_price / 10 ^ 9 ∧
        |g10 s.cur_price - s.cur_price| ≤ s.cur_price / 10 ^ 9 := by
  obtain ⟨⟨hqty, hnd, hcap⟩, hfields⟩ := hM
  constructor
  · have hfm : (save_file st).filterMap parseLine =
        st.map (fun s => ⟨s.symbol, s.qty, g10 s.buy_price, g10 s.cur_price⟩) := by
      unfold save_file
      rw [List.filterMap_map]
      exact filterMap_eq_map _ _ st (fun s hs => by
        obtain ⟨hok, hb, hc⟩ := hfields s hs
        exact parseLine_save_line s hok (hqty s hs) (le_of_lt hb) hc)
    simp only [load_file]
    rw [loadAux_eq (save_file st) [] 0 (by simp)]
    rw [hfm]
    simp only [List.length_nil, Nat.sub_zero]
    rw [List.take_of_length_le (by simpa using hcap)]
    rw [Nat.min_eq_right (by simpa using hcap)]
    simp
  · intro s hs
    obtain ⟨hok, hb, hc⟩ := hfields s hs
    exact ⟨g10_err_nonneg s.buy_price (le_of_lt hb), g10_err_nonneg s.cur_price hc⟩

/-- C3 witness: a one-holding ledger round-trips. -/
theorem C3_save_load_roundtrip_witness :
    load_file [⟨"ABC".data, 10, 10, 25/2⟩]
        (some (save_file [⟨"ABC".data, 10, 10, 25/2⟩])) =
      (some (List.length ([⟨"ABC".data, 10, 10, 25/2⟩] : List Stock)),
        ([⟨"ABC".data, 10, 10, 25/2⟩] : List Stock).map
          (fun s => ⟨s.symbol, s.qty, g10 s.buy_price, g10 s.cur_price⟩)) ∧
      ∀ s ∈ ([⟨"ABC".data, 10, 10, 25/2⟩] : List Stock),
        |g10 s.buy_price - s.buy_price| ≤ s.buy_price / 10 ^ 9 ∧
        |g10 s.cur_price - s.cur_price| ≤ s.cur_price / 10 ^ 9 :=
  C3_save_load_roundtrip [⟨"ABC".data, 10, 10, 25/2⟩]
    (by
      refine ⟨⟨?_, ?_, ?_⟩, ?_⟩
      · intro s hs
        simp at hs
        rw [hs]
        norm_num
      · simp
      · simp [MAX_STOCKS]
      · intro s hs
        simp at hs
        rw [hs]
        refine ⟨⟨by simp, by simp, ?_, by decide⟩, by norm_num, by norm_num⟩
        intro c hc
        simp at hc
        rcases hc with h | h | h <;> rw [h] <;> decide)

end Portfolio
